import Mathlib

/-!
Verification of the `poisson_2d` crate (2-D finite-element Poisson solver).

Shallow embedding conventions:
* `f64` values are modelled as exact real numbers (`ℝ`); every claim settled
  here is about algebraic structure (equalities, symmetry, zero/one entries),
  none is about rounding.
* A Rust `panic!` / `unwrap` failure is modelled as `Option.none`; functions
  that can panic return an `Option`.
* `nalgebra`'s dynamically sized `DMatrix`/`DVector` are modelled as an entry
  function together with the stored dimensions; a loop
  `for i in 0..n { v[i] = e(i) }` is embedded as the pointwise update
  `fun i => if i < n then e i else v i`, which assigns exactly the same
  final value to every index as the loop does.
* `nalgebra_sparse`'s `CsrMatrix` is modelled row by row, a row being the
  list of its stored `(column, value)` pairs; `CooMatrix` is the list of
  pushed `(row, col, value)` triplets.  The CSR-from-COO conversion keeps
  one stored entry per distinct `(row, col)` key, holding the sum of the
  duplicate coordinate values (column order inside a row is not observed by
  any property proved here, so the first-occurrence order replaces sorting).
-/

noncomputable section

/-- Point2 from nalgebra: an (x, y) coordinate. -/
structure Point2 where
  x : ℝ
  y : ℝ

/-- Vector2 from nalgebra: an (x, y) vector. -/
structure Vector2 where
  x : ℝ
  y : ℝ

/-- Matrix2 from nalgebra, entries `mij` = row i, column j. -/
structure Matrix2 where
  m11 : ℝ
  m12 : ℝ
  m21 : ℝ
  m22 : ℝ

/-- Determinant of a 2×2 matrix. -/
def Matrix2.determinant (m : Matrix2) : ℝ :=
  m.m11 * m.m22 - m.m12 * m.m21

open Classical in
/-- nalgebra's `try_inverse` on 2×2 `f64` matrices: `None` exactly when the
determinant is zero, otherwise the inverse. -/
def Matrix2.try_inverse (m : Matrix2) : Option Matrix2 :=
  if m.determinant = 0 then none
  else some ⟨m.m22 / m.determinant, -m.m12 / m.determinant,
             -m.m21 / m.determinant, m.m11 / m.determinant⟩

/-- Transpose of a 2×2 matrix. -/
def Matrix2.transpose (m : Matrix2) : Matrix2 :=
  ⟨m.m11, m.m21, m.m12, m.m22⟩

/-- Matrix–vector product. -/
def Matrix2.mulVec (m : Matrix2) (v : Vector2) : Vector2 :=
  ⟨m.m11 * v.x + m.m12 * v.y, m.m21 * v.x + m.m22 * v.y⟩

/-- Dot product of two 2-vectors. -/
def Vector2.dot (u v : Vector2) : ℝ :=
  u.x * v.x + u.y * v.y

/-! ## element.rs -/

/-- The two reference elements of `element.rs`. -/
inductive ReferenceElement where
  | Tri3 : ReferenceElement
  | Quad4 : ReferenceElement

/-- `ReferenceElement::num_nodes`. -/
def ReferenceElement.num_nodes : ReferenceElement → ℕ
  | .Tri3 => 3
  | .Quad4 => 4

/-- `ReferenceElement::shape_functions` (element.rs lines 22–39), verbatim:
triangle `[1−ξ−η, ξ, η]`, quadrilateral the four bilinear functions. -/
def ReferenceElement.shape_functions (e : ReferenceElement)
    (local_coordinates : Point2) : List ℝ :=
  match e with
  | .Tri3 =>
      let xi := local_coordinates.x
      let eta := local_coordinates.y
      [1 - xi - eta, xi, eta]
  | .Quad4 =>
      let xi := local_coordinates.x
      let eta := local_coordinates.y
      let n1 := 0.25 * (1 - xi) * (1 - eta)
      let n2 := 0.25 * (1 + xi) * (1 - eta)
      let n3 := 0.25 * (1 + xi) * (1 + eta)
      let n4 := 0.25 * (1 - xi) * (1 + eta)
      [n1, n2, n3, n4]

/-- `ReferenceElement::shape_gradients` (element.rs lines 41–69), verbatim:
note that the first triangle vector is written `Vector2::new(-1.0, 1.0)` in
the source. -/
def ReferenceElement.shape_gradients (e : ReferenceElement)
    (local_coordinates : Point2) : List Vector2 :=
  match e with
  | .Tri3 =>
      [⟨-1, 1⟩, ⟨1, 0⟩, ⟨0, 1⟩]
  | .Quad4 =>
      let xi := local_coordinates.x
      let eta := local_coordinates.y
      let dn1_dxi := -0.25 * (1 - eta)
      let dn1_deta := -0.25 * (1 - xi)
      let dn2_dxi := 0.25 * (1 - eta)
      let dn2_deta := -0.25 * (1 + xi)
      let dn3_dxi := 0.25 * (1 + eta)
      let dn3_deta := 0.25 * (1 + xi)
      let dn4_dxi := -0.25 * (1 + eta)
      let dn4_deta := 0.25 * (1 - xi)
      [⟨dn1_dxi, dn1_deta⟩, ⟨dn2_dxi, dn2_deta⟩,
       ⟨dn3_dxi, dn3_deta⟩, ⟨dn4_dxi, dn4_deta⟩]

/-- `ReferenceElement::jacobian` (element.rs lines 71–99).  The triangle
Jacobian comes from the two edge vectors; the quadrilateral Jacobian
accumulates `grad ⊗ vertex` over the zipped gradients and vertices. -/
def ReferenceElement.jacobian (e : ReferenceElement)
    (vertices_coordinates : List Point2) (local_coordinates : Point2) :
    Matrix2 :=
  match e with
  | .Tri3 =>
      let v0 := vertices_coordinates.getD 0 ⟨0, 0⟩
      let v1 := vertices_coordinates.getD 1 ⟨0, 0⟩
      let v2 := vertices_coordinates.getD 2 ⟨0, 0⟩
      let dx_dxi := v1.x - v0.x
      let dy_dxi := v1.y - v0.y
      let dx_deta := v2.x - v0.x
      let dy_deta := v2.y - v0.y
      ⟨dx_dxi, dx_deta, dy_dxi, dy_deta⟩
  | .Quad4 =>
      ((e.shape_gradients local_coordinates).zip vertices_coordinates).foldl
        (fun (jac : Matrix2) gv =>
          ⟨jac.m11 + gv.1.x * gv.2.x, jac.m12 + gv.1.y * gv.2.x,
           jac.m21 + gv.1.x * gv.2.y, jac.m22 + gv.1.y * gv.2.y⟩)
        ⟨0, 0, 0, 0⟩

/-! ## quadrature.rs -/

/-- `QuadRule`: paired quadrature points and weights. -/
structure QuadRule where
  points : List Point2
  weights : List ℝ

/-- The order-1 triangle rule of `quadrature.rs`. -/
def triRule1 : QuadRule :=
  ⟨[⟨1 / 3, 1 / 3⟩], [0.5]⟩

/-- The order-2 triangle rule of `quadrature.rs`. -/
def triRule2 : QuadRule :=
  ⟨[⟨1 / 6, 1 / 6⟩, ⟨2 / 3, 1 / 6⟩, ⟨1 / 6, 2 / 3⟩],
   [1 / 6, 1 / 6, 1 / 6]⟩

/-- The 1-point quadrilateral rule of `quadrature.rs`. -/
def quadRule1 : QuadRule :=
  ⟨[⟨0, 0⟩], [4]⟩

/-- The 2×2 Gauss rule of `quadrature.rs`: `a = 1/√3`, points enumerated as
in the nested `for xi in pts { for eta in pts { .. } }` loops, unit
weights. -/
def quadRule2 : QuadRule :=
  ⟨[⟨-(1 / Real.sqrt 3), -(1 / Real.sqrt 3)⟩,
    ⟨-(1 / Real.sqrt 3), 1 / Real.sqrt 3⟩,
    ⟨1 / Real.sqrt 3, -(1 / Real.sqrt 3)⟩,
    ⟨1 / Real.sqrt 3, 1 / Real.sqrt 3⟩],
   [1, 1, 1, 1]⟩

/-- `QuadRule::triangle` (quadrature.rs lines 10–26); the `panic!` on any
order other than 1 or 2 is modelled as `none`. -/
def QuadRule.triangle (order : ℕ) : Option QuadRule :=
  if order = 1 then some triRule1
  else if order = 2 then some triRule2
  else none

/-- `QuadRule::quadrilateral` (quadrature.rs lines 28–49); the `panic!` on
any order other than 1 or 2 is modelled as `none`. -/
def QuadRule.quadrilateral (n : ℕ) : Option QuadRule :=
  if n = 1 then some quadRule1
  else if n = 2 then some quadRule2
  else none

/-! ## mesh.rs -/

/-- `ElementType` from mesh.rs. -/
inductive ElementType where
  | P1 : ElementType
  | Q1 : ElementType

/-- `Element` from mesh.rs: the global vertex indices of one element. -/
structure Element where
  indices : List ℕ

/-- `Mesh2d` from mesh.rs. -/
structure Mesh2d where
  vertices : List Point2
  elements : List Element
  element_type : ElementType

/-- The reference element selected by the assembler for a mesh's element
type (solver.rs lines 18–21). -/
def refElementFor : ElementType → ReferenceElement
  | .P1 => ReferenceElement.Tri3
  | .Q1 => ReferenceElement.Quad4

/-- The quadrature rule selected by the assembler for a mesh's element type
(solver.rs lines 25–28): second-order rules by default. -/
def ruleFor : ElementType → Option QuadRule
  | .P1 => QuadRule.triangle 2
  | .Q1 => QuadRule.quadrilateral 2

/-- Well-formedness of a mesh, the caller contract assumed by the assembler
(the Rust code index-faults otherwise): each element carries exactly
`num_nodes` vertex indices and they are all in range. -/
def Mesh2d.wfBool (mesh : Mesh2d) : Bool :=
  mesh.elements.all (fun e =>
    e.indices.length = (refElementFor mesh.element_type).num_nodes &&
    e.indices.all (fun i => i < mesh.vertices.length))

/-- Propositional form of `Mesh2d.wfBool`. -/
def Mesh2d.Wf (mesh : Mesh2d) : Prop :=
  mesh.wfBool = true

/-! ## Claims about the reference element and the quadrature rules -/

/-- A constant vector `g` is the (ξ,η)-gradient of a function `N` that is
affine in (ξ,η) exactly when every difference of values of `N` equals the
dot product of `g` with the difference of the two points. -/
def IsAffineGradient (N : Point2 → ℝ) (g : Vector2) : Prop :=
  ∀ p q : Point2, N q - N p = g.x * (q.x - p.x) + g.y * (q.y - p.y)

/-! ## Dense and sparse containers -/

/-- nalgebra `DMatrix<f64>` (the name `DMatrix` itself is taken by Mathlib): stored dimensions plus an entry function. -/
structure DMat where
  nrows : ℕ
  ncols : ℕ
  entry : ℕ → ℕ → ℝ

/-- `DMatrix::zeros`. -/
def DMat.zeros (r c : ℕ) : DMat :=
  ⟨r, c, fun _ _ => 0⟩

/-- Write one entry of a dense matrix. -/
def DMat.set (a : DMat) (i j : ℕ) (v : ℝ) : DMat :=
  ⟨a.nrows, a.ncols, fun r c => if r = i ∧ c = j then v else a.entry r c⟩

/-- `a[(i, j)] += v`. -/
def DMat.addAt (a : DMat) (i j : ℕ) (v : ℝ) : DMat :=
  a.set i j (a.entry i j + v)

/-- nalgebra `DVector<f64>`: stored length plus an entry function. -/
structure DVector where
  len : ℕ
  entry : ℕ → ℝ

/-- `DVector::zeros`. -/
def DVector.zeros (n : ℕ) : DVector :=
  ⟨n, fun _ => 0⟩

/-- Write one entry of a dense vector. -/
def DVector.set (b : DVector) (i : ℕ) (v : ℝ) : DVector :=
  ⟨b.len, fun k => if k = i then v else b.entry k⟩

/-- `b[i] += v`. -/
def DVector.addAt (b : DVector) (i : ℕ) (v : ℝ) : DVector :=
  b.set i (b.entry i + v)

/-- A COO (coordinate-list) triplet: `(row, col, value)`. -/
abbrev CooTriplet : Type := ℕ × ℕ × ℝ

/-- `cols.iter().position(|&c| c == j)` over a CSR row stored as a list of
`(column, value)` pairs. -/
def findPos : List (ℕ × ℝ) → ℕ → Option ℕ
  | [], _ => none
  | p :: t, j => if p.1 = j then some 0 else (findPos t j).map (· + 1)

/-- `row.values()[pos]`. -/
def getValAt (l : List (ℕ × ℝ)) (pos : ℕ) : ℝ :=
  (l.getD pos (0, 0)).2

/-- `row.values_mut()[pos] = v`. -/
def setValAt : List (ℕ × ℝ) → ℕ → ℝ → List (ℕ × ℝ)
  | [], _, _ => []
  | p :: t, 0, v => (p.1, v) :: t
  | p :: t, pos + 1, v => p :: setValAt t pos v

/-- `for v in row.values_mut() { *v = 0.0 }`. -/
def zeroVals (l : List (ℕ × ℝ)) : List (ℕ × ℝ) :=
  l.map (fun p => (p.1, 0))

/-- The value a CSR row represents at column `c` (sum of stored values with
that column key; a row of a `CsrMatrix` stores each column at most once). -/
def rowVal (l : List (ℕ × ℝ)) (c : ℕ) : ℝ :=
  ((l.filter (fun p => p.1 = c)).map (fun p => p.2)).sum

/-- nalgebra_sparse `CsrMatrix<f64>`: stored dimensions plus, for every row
index, the list of that row's stored `(column, value)` pairs (rows at or
beyond `nrows` hold the empty list). -/
structure CsrMatrix where
  nrows : ℕ
  ncols : ℕ
  rows : ℕ → List (ℕ × ℝ)

/-- `CsrMatrix::from(&coo)`: one stored entry per distinct `(row, col)` key
of the pushed triplets, holding the sum of the duplicate coordinate values
(solver.rs line 165; column order inside a row is not observed by any
property proved here). -/
def CsrMatrix.fromCoo (nr nc : ℕ) (coo : List CooTriplet) : CsrMatrix :=
  ⟨nr, nc, fun i =>
    if i < nr then
      ((coo.filterMap (fun t => if t.1 = i then some t.2.1 else none)).dedup).map
        (fun c =>
          (c, ((coo.filter (fun t => t.1 = i ∧ t.2.1 = c)).map
                (fun t => t.2.2)).sum))
    else []⟩

/-- The dense value represented by a CSR matrix at `(r, c)`. -/
def CsrMatrix.densify (a : CsrMatrix) (r c : ℕ) : ℝ :=
  rowVal (a.rows r) c

/-- `(r, c)` is structurally stored in the CSR sparsity pattern.
(Reducible so that membership in the column list stays decidable.) -/
@[reducible] def CsrMatrix.storedAt (a : CsrMatrix) (r c : ℕ) : Prop :=
  c ∈ (a.rows r).map Prod.fst

/-- CSR structural invariant guaranteed by `nalgebra_sparse` and by
`CsrMatrix.fromCoo`: every row stores each column at most once, and only
the first `nrows` rows exist. -/
def CsrMatrix.Wf (a : CsrMatrix) : Prop :=
  (∀ i, ((a.rows i).map Prod.fst).Nodup) ∧ ∀ i, a.nrows ≤ i → a.rows i = []

/-! ## solver.rs : assembly -/

/-- The body of the quadrature loop shared verbatim by
`assemble_system_dense` (solver.rs lines 42–74) and
`assemble_system_sparse` (solver.rs lines 122–154): update the local
stiffness `ke` and local load `fe` with one quadrature point's
contribution.  `jac_ref.try_inverse().unwrap()` panicking on a
non-invertible Jacobian is modelled by returning `none`. -/
def quadPointUpdate (ref : ReferenceElement) (nodes : List Point2)
    (source_fn : ℝ → ℝ → ℝ) (kefe : (ℕ → ℕ → ℝ) × (ℕ → ℝ))
    (qw : Point2 × ℝ) : Option ((ℕ → ℕ → ℝ) × (ℕ → ℝ)) :=
  let grads_ref := ref.shape_gradients qw.1
  let jac_ref := ref.jacobian nodes qw.1
  let det_jac_ref := jac_ref.determinant
  match jac_ref.try_inverse with
  | none => none
  | some jinv =>
    let jac_inv_t := jinv.transpose
    let grads_global := grads_ref.map (fun g => jac_inv_t.mulVec g)
    let shape_vals := ref.shape_functions qw.1
    let x := (shape_vals.zip nodes).foldl (fun acc vv => acc + vv.1 * vv.2.x) 0
    let y := (shape_vals.zip nodes).foldl (fun acc vv => acc + vv.1 * vv.2.y) 0
    let f_val := source_fn x y
    let weight := qw.2 * |det_jac_ref|
    let n := ref.num_nodes
    some
      (fun i j =>
        if i < n ∧ j < n then
          kefe.1 i j +
            (grads_global.getD i ⟨0, 0⟩).dot (grads_global.getD j ⟨0, 0⟩) *
              weight
        else kefe.1 i j,
       fun i =>
        if i < n then kefe.2 i + shape_vals.getD i 0 * f_val * weight
        else kefe.2 i)

/-- The local `(ke, fe)` of one element: the quadrature loop folded over the
zipped points and weights, starting from the zero-initialised local
matrix/vector. -/
def elementKeFe (ref : ReferenceElement) (rule : QuadRule)
    (nodes : List Point2) (source_fn : ℝ → ℝ → ℝ) :
    Option ((ℕ → ℕ → ℝ) × (ℕ → ℝ)) :=
  (rule.points.zip rule.weights).foldlM (quadPointUpdate ref nodes source_fn)
    (fun _ _ => 0, fun _ => 0)

/-- The element node coordinates gathered from the mesh (solver.rs lines
33–37). -/
def elementNodes (mesh : Mesh2d) (element : Element) : List Point2 :=
  element.indices.map (fun vid => mesh.vertices.getD vid ⟨0, 0⟩)

/-- One element's step of `assemble_system_dense` (solver.rs lines 31–83):
compute the local `(ke, fe)`, then scatter it additively into the global
dense matrix and vector via the element's `enumerate()`d global indices. -/
def elementStepDense (mesh : Mesh2d) (ref : ReferenceElement)
    (rule : QuadRule) (source_fn : ℝ → ℝ → ℝ) (st : DMat × DVector)
    (element : Element) : Option (DMat × DVector) :=
  match elementKeFe ref rule (elementNodes mesh element) source_fn with
  | none => none
  | some kefe =>
    some (element.indices.enum.foldl
      (fun (st : DMat × DVector) ig =>
        let b' := st.2.addAt ig.2 (kefe.2 ig.1)
        let a' := element.indices.enum.foldl
          (fun (aa : DMat) jg => aa.addAt ig.2 jg.2 (kefe.1 ig.1 jg.1))
          st.1
        (a', b'))
      st)

/-- `assemble_system_dense` (solver.rs lines 9–86). -/
def assemble_system_dense (mesh : Mesh2d) (source_fn : ℝ → ℝ → ℝ) :
    Option (DMat × DVector) :=
  let num_vertices := mesh.vertices.length
  let ref_element := refElementFor mesh.element_type
  match ruleFor mesh.element_type with
  | none => none
  | some quad_rule =>
    mesh.elements.foldlM (elementStepDense mesh ref_element quad_rule source_fn)
      (DMat.zeros num_vertices num_vertices, DVector.zeros num_vertices)

/-- One element's step of `assemble_system_sparse` (solver.rs lines
111–163): identical local computation, but the stiffness contributions are
pushed onto the COO triplet list instead of being added in place. -/
def elementStepSparse (mesh : Mesh2d) (ref : ReferenceElement)
    (rule : QuadRule) (source_fn : ℝ → ℝ → ℝ)
    (st : List CooTriplet × DVector) (element : Element) :
    Option (List CooTriplet × DVector) :=
  match elementKeFe ref rule (elementNodes mesh element) source_fn with
  | none => none
  | some kefe =>
    some (element.indices.enum.foldl
      (fun (st : List CooTriplet × DVector) ig =>
        let b' := st.2.addAt ig.2 (kefe.2 ig.1)
        let coo' := element.indices.enum.foldl
          (fun (cc : List CooTriplet) jg => cc ++ [(ig.2, jg.2, kefe.1 ig.1 jg.1)])
          st.1
        (coo', b'))
      st)

/-- `assemble_system_sparse` (solver.rs lines 89–167): accumulate the COO
triplets, then convert to CSR. -/
def assemble_system_sparse (mesh : Mesh2d) (source_fn : ℝ → ℝ → ℝ) :
    Option (CsrMatrix × DVector) :=
  let num_vertices := mesh.vertices.length
  let ref_element := refElementFor mesh.element_type
  match ruleFor mesh.element_type with
  | none => none
  | some quad_rule =>
    match mesh.elements.foldlM
        (elementStepSparse mesh ref_element quad_rule source_fn)
        (([] : List CooTriplet), DVector.zeros num_vertices) with
    | none => none
    | some st =>
      some (CsrMatrix.fromCoo num_vertices num_vertices st.1, st.2)

/-! ## solver.rs : Dirichlet boundary conditions -/

/-- The Dirichlet value attached to boundary node `j`: the boundary function
evaluated at vertex `j`'s coordinates. -/
def gAt (mesh : Mesh2d) (g : ℝ → ℝ → ℝ) (j : ℕ) : ℝ :=
  let v := mesh.vertices.getD j ⟨0, 0⟩
  g v.x v.y

/-- `apply_dirichlet_dense` (solver.rs lines 170–203).  Phase 1 subtracts
`a[(i, j)] * g_j` from every `b[i]` for every boundary node, reading the
original matrix (the matrix is not written during phase 1); phase 2 zeroes
each boundary row and column, sets the diagonal to 1 and pins `b[j]`. -/
def apply_dirichlet_dense (a : DMat) (b : DVector)
    (boundary_nodes : List ℕ) (mesh : Mesh2d) (g : ℝ → ℝ → ℝ) :
    DMat × DVector :=
  let values := boundary_nodes.map (fun i => (i, gAt mesh g i))
  let n := a.nrows
  let b1 := values.foldl
    (fun (bb : DVector) jg =>
      ⟨bb.len, fun i =>
        if i < n then bb.entry i - a.entry i jg.1 * jg.2 else bb.entry i⟩)
    b
  values.foldl
    (fun (st : DMat × DVector) jg =>
      let a2 : DMat :=
        ⟨st.1.nrows, st.1.ncols, fun r c =>
          if r = jg.1 ∧ c = jg.1 then 1
          else if (r = jg.1 ∧ c < n) ∨ (c = jg.1 ∧ r < n) then 0
          else st.1.entry r c⟩
      (a2, st.2.set jg.1 jg.2))
    (a, b1)

/-- The source idiom `if let Some(pos) = cols.position(j) { vals[pos] = v }`
applied to one stored row: write `v` at the stored column-`j` slot if
present, do nothing otherwise. -/
def writeAtCol (l : List (ℕ × ℝ)) (j : ℕ) (v : ℝ) : List (ℕ × ℝ) :=
  match findPos l j with
  | some pos => setValAt l pos v
  | none => l

/-- One boundary node's step of `apply_dirichlet_sparse` (solver.rs lines
224–262), in source order: (1) subtract the stored `a[(i, j)] * g_j` from
`b[i]` for every row `i`; (2) zero the values of row `j`; (3) zero the
stored column-`j` value of every row `i < n` (positions collected first in
the source, which is equivalent because writing a value moves no stored
position); (4) set the diagonal value to 1 if `(j, j)` is stored; (5) pin
`b[j] = g_j`. -/
def dirichletSparseStep (a : CsrMatrix) (b : DVector) (jg : ℕ × ℝ) :
    CsrMatrix × DVector :=
  let n := a.nrows
  let b1 : DVector :=
    ⟨b.len, fun i =>
      if i < n then
        match findPos (a.rows i) jg.1 with
        | some pos => b.entry i - getValAt (a.rows i) pos * jg.2
        | none => b.entry i
      else b.entry i⟩
  let a1 : CsrMatrix :=
    ⟨a.nrows, a.ncols, fun r =>
      if r = jg.1 then zeroVals (a.rows jg.1) else a.rows r⟩
  let a2 : CsrMatrix :=
    ⟨a1.nrows, a1.ncols, fun r =>
      if r < n then writeAtCol (a1.rows r) jg.1 0 else a1.rows r⟩
  let a3 : CsrMatrix :=
    ⟨a2.nrows, a2.ncols, fun r =>
      if r = jg.1 then writeAtCol (a2.rows jg.1) jg.1 1 else a2.rows r⟩
  (a3, b1.set jg.1 jg.2)

/-- `apply_dirichlet_sparse` (solver.rs lines 206–263): the per-node
elimination folded over the boundary nodes in sequence. -/
def apply_dirichlet_sparse (a : CsrMatrix) (b : DVector)
    (boundary_nodes : List ℕ) (mesh : Mesh2d) (g : ℝ → ℝ → ℝ) :
    CsrMatrix × DVector :=
  let bc_vals := boundary_nodes.map (fun j => (j, gAt mesh g j))
  bc_vals.foldl (fun st jg => dirichletSparseStep st.1 st.2 jg) (a, b)

/-! ## solver.rs : linear solvers -/

/-- `dense_solver` (solver.rs lines 266–269).  The Cholesky factorisation
lives in nalgebra, outside this repository; it is abstracted as a parameter
returning either `none` (factorisation failed, the matrix is not SPD) or a
solve function.  The source propagates the failure with `?` and otherwise
returns `Some(chol.solve(b))`. -/
def dense_solver (cholesky : DMat → Option (DVector → DVector))
    (a : DMat) (b : DVector) : Option DVector :=
  match cholesky a with
  | none => none
  | some chol => some (chol b)

/-- `sparse_solver` (solver.rs lines 272–274).  The conjugate-gradient
iteration lives in nalgebra_sparse_linalg, outside this repository; it is
abstracted as a parameter taking the matrix, the right-hand side, the
maximum iteration count and the residual tolerance, returning `none` on
non-convergence.  The source calls it with the literals `1000` and
`1e-10`. -/
def sparse_solver
    (conjugate_gradient : CsrMatrix → DVector → ℕ → ℝ → Option DVector)
    (a : CsrMatrix) (b : DVector) : Option DVector :=
  conjugate_gradient a b 1000 (1 / 10 ^ 10)

/-! ## Lemmas: CSR row primitives -/

/-- The sum of all pushed COO values with key `(r, c)` — the dense value the
triplet list represents. -/
def cooSum (coo : List CooTriplet) (r c : ℕ) : ℝ :=
  ((coo.filter (fun t => t.1 = r ∧ t.2.1 = c)).map (fun t => t.2.2)).sum

/-- The stiffness triplets one element contributes, in push order: for each
`(local_i, global_i)` of the enumerated indices, for each
`(local_j, global_j)`, the triplet `(global_i, global_j, ke[i][j])`. -/
def elemTriplets (idx : List (ℕ × ℕ)) (ke : ℕ → ℕ → ℝ) : List CooTriplet :=
  (idx.map (fun ig => idx.map (fun jg => (ig.2, jg.2, ke ig.1 jg.1)))).flatten

/-- The default quadrature rule the assemblers select per element type. -/
def quadRuleDefault : ElementType → QuadRule
  | .P1 => triRule2
  | .Q1 => quadRule2

/-- The invariant tying the dense assembly state to the sparse one: equal
represented values, equal load vectors, the expected dimensions and
in-range COO keys. -/
def AssembleInv (nv : ℕ) (sd : DMat × DVector)
    (ss : List CooTriplet × DVector) : Prop :=
  (∀ r c, sd.1.entry r c = cooSum ss.1 r c) ∧
  (∀ k, sd.2.entry k = ss.2.entry k) ∧
  sd.1.nrows = nv ∧ sd.1.ncols = nv ∧ sd.2.len = nv ∧ ss.2.len = nv ∧
  ∀ t ∈ ss.1, t.1 < nv ∧ t.2.1 < nv

/-- Every element Jacobian is invertible at every point of the selected
quadrature rule — the caller-level sanity invariant of the assemblers. -/
def allJacobiansInvertible (mesh : Mesh2d) : Prop :=
  ∀ e ∈ mesh.elements, ∀ p ∈ (quadRuleDefault mesh.element_type).points,
    ((refElementFor mesh.element_type).jacobian (elementNodes mesh e)
      p).determinant ≠ 0

/-- The single-element Q1 unit-square mesh used by the repository's own
tests (solver.rs lines 320–358). -/
def unitSquareMesh : Mesh2d :=
  ⟨[⟨0, 0⟩, ⟨1, 0⟩, ⟨1, 1⟩, ⟨0, 1⟩], [⟨[0, 1, 2, 3]⟩], ElementType.Q1⟩

/-! ## Claims about the reference element and the quadrature rules -/

/-- C1: `Tri3.shape_gradients` returns `(-1, 1)` for node 0, but the first
shape function `1 − ξ − η` decreases by 1 from `(0,0)` to `(0,1)`, so its
η-derivative is `−1`, not `+1`: the returned vector is not the gradient of
the shape function.  (The vectors for nodes 1 and 2 are correct; node 0's
η-component is a sign slip in the source.) -/
theorem tri3_shape_gradient_node0_wrong :
    ((ReferenceElement.Tri3.shape_gradients ⟨0, 0⟩).getD 0 ⟨0, 0⟩ =
      (⟨-1, 1⟩ : Vector2)) ∧
    ((ReferenceElement.Tri3.shape_functions ⟨0, 1⟩).getD 0 0 -
      (ReferenceElement.Tri3.shape_functions ⟨0, 0⟩).getD 0 0 = -1) ∧
    ¬ IsAffineGradient
        (fun p => (ReferenceElement.Tri3.shape_functions p).getD 0 0)
        ((ReferenceElement.Tri3.shape_gradients ⟨0, 0⟩).getD 0 ⟨0, 0⟩) := by
  refine ⟨rfl, by norm_num [ReferenceElement.shape_functions], ?_⟩
  intro h
  have := h ⟨0, 0⟩ ⟨0, 1⟩
  norm_num [ReferenceElement.shape_functions,
    ReferenceElement.shape_gradients] at this

/-- C9: partition of unity — at every reference point the shape functions of
both element types sum to 1. -/
theorem shape_functions_partition_of_unity :
    ∀ p : Point2,
      (ReferenceElement.Tri3.shape_functions p).sum = 1 ∧
      (ReferenceElement.Quad4.shape_functions p).sum = 1 := by
  intro p
  constructor <;> simp [ReferenceElement.shape_functions] <;> ring

/-- C8: for every order outside {1, 2} both rule constructors fail fatally
(`none`, the model of the source `panic!`), and they succeed on 1 and 2; in
particular order 3 yields no rule for either element type. -/
theorem quadrule_unsupported_order_fatal :
    ∀ order : ℕ,
      (QuadRule.triangle order = none ↔ order ≠ 1 ∧ order ≠ 2) ∧
      (QuadRule.quadrilateral order = none ↔ order ≠ 1 ∧ order ≠ 2) := by
  intro ord
  unfold QuadRule.triangle QuadRule.quadrilateral
  constructor <;> split_ifs <;> simp_all

theorem zeroVals_map_fst (l : List (ℕ × ℝ)) :
    (zeroVals l).map Prod.fst = l.map Prod.fst := by
  induction l with
  | nil => rfl
  | cons p t ih => simp [zeroVals] at ih ⊢

theorem rowVal_nil (c : ℕ) : rowVal [] c = 0 := rfl

theorem rowVal_cons (p : ℕ × ℝ) (t : List (ℕ × ℝ)) (c : ℕ) :
    rowVal (p :: t) c = (if p.1 = c then p.2 else 0) + rowVal t c := by
  by_cases h : p.1 = c <;> simp [rowVal, List.filter_cons, h]

theorem rowVal_zeroVals (l : List (ℕ × ℝ)) (c : ℕ) :
    rowVal (zeroVals l) c = 0 := by
  induction l with
  | nil => rfl
  | cons p t ih =>
      rw [zeroVals] at ih ⊢
      simp only [List.map_cons] at ih ⊢
      rw [rowVal_cons, ih]
      split <;> simp

theorem rowVal_eq_zero_of_not_mem (l : List (ℕ × ℝ)) (c : ℕ)
    (h : c ∉ l.map Prod.fst) : rowVal l c = 0 := by
  induction l with
  | nil => rfl
  | cons p t ih =>
      simp only [List.map_cons, List.mem_cons, not_or] at h
      rw [rowVal_cons, ih h.2, if_neg (fun hh => h.1 hh.symm), add_zero]

theorem setValAt_map_fst (l : List (ℕ × ℝ)) (pos : ℕ) (v : ℝ) :
    (setValAt l pos v).map Prod.fst = l.map Prod.fst := by
  induction l generalizing pos with
  | nil => rfl
  | cons p t ih =>
      cases pos with
      | zero => simp [setValAt]
      | succ k => simp [setValAt, ih]

theorem findPos_cons_pos {p : ℕ × ℝ} {t : List (ℕ × ℝ)} {j : ℕ}
    (h : p.1 = j) : findPos (p :: t) j = some 0 := by
  rw [findPos, if_pos h]

theorem findPos_cons_neg {p : ℕ × ℝ} {t : List (ℕ × ℝ)} {j : ℕ}
    (h : ¬p.1 = j) : findPos (p :: t) j = (findPos t j).map (· + 1) := by
  rw [findPos, if_neg h]

theorem findPos_eq_none (l : List (ℕ × ℝ)) (j : ℕ) :
    findPos l j = none ↔ j ∉ l.map Prod.fst := by
  induction l with
  | nil => simp [findPos]
  | cons p t ih =>
      rw [List.map_cons, List.mem_cons]
      by_cases h : p.1 = j
      · rw [findPos_cons_pos h]
        simp [h]
      · rw [findPos_cons_neg h, Option.map_eq_none', ih]
        constructor
        · intro ht hc
          rcases hc with hc | hc
          · exact h hc.symm
          · exact ht hc
        · intro hc
          exact fun hm => hc (Or.inr hm)

theorem findPos_isSome (l : List (ℕ × ℝ)) (j : ℕ) :
    (findPos l j).isSome ↔ j ∈ l.map Prod.fst := by
  rcases hfp : findPos l j with _ | pos
  · rw [findPos_eq_none] at hfp
    simp [hfp]
  · have hmem : j ∈ l.map Prod.fst := by
      by_contra hc
      rw [← findPos_eq_none] at hc
      rw [hc] at hfp
      cases hfp
    simp [hmem]

theorem getValAt_findPos (l : List (ℕ × ℝ)) (j pos : ℕ)
    (hnd : (l.map Prod.fst).Nodup) (h : findPos l j = some pos) :
    getValAt l pos = rowVal l j := by
  induction l generalizing pos with
  | nil => cases h
  | cons p t ih =>
      simp only [List.map_cons, List.nodup_cons] at hnd
      by_cases hp : p.1 = j
      · rw [findPos_cons_pos hp] at h
        have h0 := Option.some.inj h
        subst h0
        rw [rowVal_cons, if_pos hp, rowVal_eq_zero_of_not_mem t j (hp ▸ hnd.1),
          add_zero]
        rfl
      · rw [findPos_cons_neg hp, Option.map_eq_some'] at h
        obtain ⟨pos', hpos', hpp⟩ := h
        subst hpp
        rw [rowVal_cons, if_neg hp, zero_add]
        exact ih pos' hnd.2 hpos'

theorem rowVal_setValAt_self (l : List (ℕ × ℝ)) (j pos : ℕ) (v : ℝ)
    (hnd : (l.map Prod.fst).Nodup) (h : findPos l j = some pos) :
    rowVal (setValAt l pos v) j = v := by
  induction l generalizing pos with
  | nil => cases h
  | cons p t ih =>
      simp only [List.map_cons, List.nodup_cons] at hnd
      by_cases hp : p.1 = j
      · rw [findPos_cons_pos hp] at h
        have h0 := Option.some.inj h
        subst h0
        rw [setValAt, rowVal_cons]
        simp only [hp, if_pos]
        rw [rowVal_eq_zero_of_not_mem t j (hp ▸ hnd.1), add_zero]
      · rw [findPos_cons_neg hp, Option.map_eq_some'] at h
        obtain ⟨pos', hpos', hpp⟩ := h
        subst hpp
        rw [setValAt, rowVal_cons, if_neg hp, zero_add]
        exact ih pos' hnd.2 hpos'

theorem rowVal_setValAt_other (l : List (ℕ × ℝ)) (j pos : ℕ) (v : ℝ) (c : ℕ)
    (h : findPos l j = some pos) (hc : c ≠ j) :
    rowVal (setValAt l pos v) c = rowVal l c := by
  induction l generalizing pos with
  | nil => cases h
  | cons p t ih =>
      by_cases hp : p.1 = j
      · rw [findPos_cons_pos hp] at h
        have h0 := Option.some.inj h
        subst h0
        rw [setValAt, rowVal_cons, rowVal_cons]
        simp only [hp]
        rw [if_neg (fun hcj => hc hcj.symm), if_neg (fun hcj => hc hcj.symm)]
      · rw [findPos_cons_neg hp, Option.map_eq_some'] at h
        obtain ⟨pos', hpos', hpp⟩ := h
        subst hpp
        rw [setValAt, rowVal_cons, rowVal_cons, ih pos' hpos']

/-! ## Lemmas: COO sums and dense scatter -/

theorem cooSum_nil (r c : ℕ) : cooSum [] r c = 0 := rfl

theorem cooSum_cons (t : CooTriplet) (l : List CooTriplet) (r c : ℕ) :
    cooSum (t :: l) r c =
      (if t.1 = r ∧ t.2.1 = c then t.2.2 else 0) + cooSum l r c := by
  by_cases h : t.1 = r ∧ t.2.1 = c <;> simp [cooSum, List.filter_cons, h]

theorem cooSum_append (l1 l2 : List CooTriplet) (r c : ℕ) :
    cooSum (l1 ++ l2) r c = cooSum l1 r c + cooSum l2 r c := by
  induction l1 with
  | nil => simp [cooSum_nil, cooSum]
  | cons t l ih => rw [List.cons_append, cooSum_cons, cooSum_cons, ih, add_assoc]

theorem cooSum_eq_zero (coo : List CooTriplet) (r c : ℕ)
    (h : ∀ t ∈ coo, ¬(t.1 = r ∧ t.2.1 = c)) : cooSum coo r c = 0 := by
  induction coo with
  | nil => rfl
  | cons t l ih =>
      rw [cooSum_cons, if_neg (h t (List.mem_cons_self t l)), zero_add]
      exact ih fun u hu => h u (List.mem_cons_of_mem t hu)

theorem DMat.addAt_entry (a : DMat) (i j : ℕ) (v : ℝ) (r c : ℕ) :
    (a.addAt i j v).entry r c =
      a.entry r c + if r = i ∧ c = j then v else 0 := by
  by_cases h : r = i ∧ c = j
  · obtain ⟨rfl, rfl⟩ := h
    simp [DMat.addAt, DMat.set]
  · simp [DMat.addAt, DMat.set, h]

theorem DVector.addAt_val (b : DVector) (i : ℕ) (v : ℝ) (k : ℕ) :
    (b.addAt i v).entry k = b.entry k + if k = i then v else 0 := by
  by_cases h : k = i
  · subst h
    simp [DVector.addAt, DVector.set]
  · simp [DVector.addAt, DVector.set, h]

theorem foldl_addAt_entry (L : List CooTriplet) (a : DMat) (r c : ℕ) :
    (L.foldl (fun aa t => aa.addAt t.1 t.2.1 t.2.2) a).entry r c =
      a.entry r c + cooSum L r c := by
  induction L generalizing a with
  | nil => simp [cooSum_nil]
  | cons t l ih =>
      rw [List.foldl_cons, ih, DMat.addAt_entry, cooSum_cons]
      have : (if t.1 = r ∧ t.2.1 = c then t.2.2 else 0) =
          (if r = t.1 ∧ c = t.2.1 then t.2.2 else 0) := by
        by_cases h : t.1 = r ∧ t.2.1 = c
        · rw [if_pos h, if_pos ⟨h.1.symm, h.2.symm⟩]
        · rw [if_neg h, if_neg (fun hh => h ⟨hh.1.symm, hh.2.symm⟩)]
      rw [this]
      ring

theorem foldl_vec_addAt_entry (P : List (ℕ × ℝ)) (b : DVector) (k : ℕ) :
    (P.foldl (fun bb p => bb.addAt p.1 p.2) b).entry k =
      b.entry k + rowVal P k := by
  induction P generalizing b with
  | nil => simp [rowVal_nil]
  | cons p l ih =>
      rw [List.foldl_cons, ih, DVector.addAt_val, rowVal_cons]
      have : (if p.1 = k then p.2 else 0) = (if k = p.1 then p.2 else 0) := by
        by_cases h : p.1 = k
        · rw [if_pos h, if_pos h.symm]
        · rw [if_neg h, if_neg (fun hh => h hh.symm)]
      rw [this]
      ring

theorem foldl_addAt_nrows (L : List CooTriplet) (a : DMat) :
    (L.foldl (fun aa t => aa.addAt t.1 t.2.1 t.2.2) a).nrows = a.nrows := by
  induction L generalizing a with
  | nil => rfl
  | cons t l ih => rw [List.foldl_cons, ih]; rfl

theorem foldl_addAt_ncols (L : List CooTriplet) (a : DMat) :
    (L.foldl (fun aa t => aa.addAt t.1 t.2.1 t.2.2) a).ncols = a.ncols := by
  induction L generalizing a with
  | nil => rfl
  | cons t l ih => rw [List.foldl_cons, ih]; rfl

theorem foldl_vec_addAt_len (P : List (ℕ × ℝ)) (b : DVector) :
    (P.foldl (fun bb p => bb.addAt p.1 p.2) b).len = b.len := by
  induction P generalizing b with
  | nil => rfl
  | cons p l ih => rw [List.foldl_cons, ih]; rfl

/-- A fold over a list where the first and second components of the state
evolve independently is the pair of the two independent folds. -/
theorem foldl_prod {α β γ : Type} (L : List α) (f : β → α → β) (g : γ → α → γ)
    (st : β × γ) :
    L.foldl (fun st x => (f st.1 x, g st.2 x)) st =
      (L.foldl f st.1, L.foldl g st.2) := by
  induction L generalizing st with
  | nil => rfl
  | cons x l ih => rw [List.foldl_cons, ih]; rfl

theorem foldl_append_singleton {α β : Type} (L : List α) (f : α → β)
    (cc : List β) :
    L.foldl (fun cc x => cc ++ [f x]) cc = cc ++ L.map f := by
  induction L generalizing cc with
  | nil => simp
  | cons x l ih => rw [List.foldl_cons, ih, List.map_cons]; simp

/-! ## The element-local triplet list -/

theorem cooSum_join_map {α : Type} (L : List α) (f : α → List CooTriplet)
    (r c : ℕ) :
    cooSum (L.map f).flatten r c = (L.map (fun x => cooSum (f x) r c)).sum := by
  induction L with
  | nil => rfl
  | cons x l ih =>
      rw [List.map_cons, List.flatten_cons, cooSum_append, ih, List.map_cons,
        List.sum_cons]

/-! ## Generic fold helpers -/

theorem foldl_preserve {α σ : Type} (P : σ → Prop) (L : List α) (f : σ → α → σ)
    (h : ∀ s x, P s → P (f s x)) (s : σ) (hs : P s) : P (L.foldl f s) := by
  induction L generalizing s with
  | nil => exact hs
  | cons x l ih => exact ih (f s x) (h s x hs)

theorem foldlM_option_invariant {α σ : Type} (P : σ → Prop) (L : List α)
    (step : σ → α → Option σ)
    (h : ∀ s x s', x ∈ L → step s x = some s' → P s → P s') :
    ∀ s s', L.foldlM step s = some s' → P s → P s' := by
  induction L with
  | nil =>
      intro s s' hfold hs
      cases hfold
      exact hs
  | cons x l ih =>
      intro s s' hfold hs
      rw [List.foldlM_cons] at hfold
      cases hstep : step s x with
      | none => rw [hstep] at hfold; cases hfold
      | some s1 =>
          rw [hstep] at hfold
          exact ih (fun s x s' hx => h s x s' (List.mem_cons_of_mem _ hx)) s1 s'
            hfold (h s x s1 (List.mem_cons_self _ _) hstep hs)

theorem foldlM_option_isSome {α σ : Type} (L : List α) (step : σ → α → Option σ)
    (p : α → Prop) (h : ∀ s x, (step s x).isSome ↔ p x) :
    ∀ s, (L.foldlM step s).isSome ↔ ∀ x ∈ L, p x := by
  induction L with
  | nil =>
      intro s
      simp [List.foldlM]
  | cons x l ih =>
      intro s
      rw [List.foldlM_cons]
      cases hstep : step s x with
      | none =>
          have hnp : ¬p x := by
            rw [← h s x, hstep]
            simp
          simp [hnp]
      | some s1 =>
          have hp : p x := by
            rw [← h s x, hstep]
            simp
          have hbind : (some s1 >>= fun s' => List.foldlM step s' l) =
              List.foldlM step s1 l := rfl
          rw [hbind, ih s1]
          simp [hp]

theorem foldlM_option_rel {α σ τ : Type} (L : List α) (stepA : σ → α → Option σ)
    (stepB : τ → α → Option τ) (R : σ → τ → Prop)
    (h : ∀ s t x, x ∈ L → R s t →
      (stepA s x = none ∧ stepB t x = none) ∨
      ∃ s' t', stepA s x = some s' ∧ stepB t x = some t' ∧ R s' t') :
    ∀ s t, R s t →
      (L.foldlM stepA s = none ∧ L.foldlM stepB t = none) ∨
      ∃ s' t', L.foldlM stepA s = some s' ∧ L.foldlM stepB t = some t' ∧
        R s' t' := by
  induction L with
  | nil =>
      intro s t hR
      exact Or.inr ⟨s, t, rfl, rfl, hR⟩
  | cons x l ih =>
      intro s t hR
      rw [List.foldlM_cons, List.foldlM_cons]
      rcases h s t x (List.mem_cons_self _ _) hR with ⟨ha, hb⟩ | ⟨s1, t1, ha, hb, hR1⟩
      · rw [ha, hb]
        exact Or.inl ⟨rfl, rfl⟩
      · rw [ha, hb]
        have hbA : (some s1 >>= fun s' => List.foldlM stepA s' l) =
            List.foldlM stepA s1 l := rfl
        have hbB : (some t1 >>= fun t' => List.foldlM stepB t' l) =
            List.foldlM stepB t1 l := rfl
        rw [hbA, hbB]
        exact ih (fun s t x hx => h s t x (List.mem_cons_of_mem _ hx)) s1 t1 hR1

theorem mem_enumFrom_snd {α : Type} :
    ∀ (l : List α) (k : ℕ) (x : ℕ × α), x ∈ l.enumFrom k → x.2 ∈ l := by
  intro l
  induction l with
  | nil => intro k x hx; cases hx
  | cons a t ih =>
      intro k x hx
      rcases hx with _ | hx
      · exact List.mem_cons_self _ _
      · exact List.mem_cons_of_mem _ (ih (k + 1) x (by assumption))

theorem mem_enum_snd {α : Type} (l : List α) (x : ℕ × α) (hx : x ∈ l.enum) :
    x.2 ∈ l :=
  mem_enumFrom_snd l 0 x hx

theorem mem_enumFrom_of_mem {α : Type} :
    ∀ (l : List α) (a : α), a ∈ l → ∀ k, ∃ i, (i, a) ∈ l.enumFrom k := by
  intro l
  induction l with
  | nil => intro a ha; cases ha
  | cons b t ih =>
      intro a ha k
      rcases ha with _ | ha
      · exact ⟨k, List.mem_cons_self _ _⟩
      · obtain ⟨i, hi⟩ := ih a (by assumption) (k + 1)
        exact ⟨i, List.mem_cons_of_mem _ hi⟩

theorem mem_enum_of_mem {α : Type} (l : List α) (a : α) (ha : a ∈ l) :
    ∃ i, (i, a) ∈ l.enum :=
  mem_enumFrom_of_mem l a ha 0

/-! ## Element scatter characterization -/

theorem scatter_pair_eq_dense (Lo Li : List (ℕ × ℕ)) (ke : ℕ → ℕ → ℝ)
    (fe : ℕ → ℝ) (st : DMat × DVector) :
    Lo.foldl (fun st ig =>
      (Li.foldl (fun aa jg => aa.addAt ig.2 jg.2 (ke ig.1 jg.1)) st.1,
       st.2.addAt ig.2 (fe ig.1))) st =
    (Lo.foldl (fun aa ig =>
        Li.foldl (fun aa2 jg => aa2.addAt ig.2 jg.2 (ke ig.1 jg.1)) aa) st.1,
     Lo.foldl (fun bb ig => bb.addAt ig.2 (fe ig.1)) st.2) := by
  induction Lo generalizing st with
  | nil => rfl
  | cons ig lo ih =>
      rw [List.foldl_cons, ih, List.foldl_cons, List.foldl_cons]

theorem scatter_pair_eq_sparse (Lo Li : List (ℕ × ℕ)) (ke : ℕ → ℕ → ℝ)
    (fe : ℕ → ℝ) (st : List CooTriplet × DVector) :
    Lo.foldl (fun st ig =>
      (Li.foldl (fun cc jg => cc ++ [(ig.2, jg.2, ke ig.1 jg.1)]) st.1,
       st.2.addAt ig.2 (fe ig.1))) st =
    (Lo.foldl (fun cc ig =>
        Li.foldl (fun cc2 jg => cc2 ++ [(ig.2, jg.2, ke ig.1 jg.1)]) cc) st.1,
     Lo.foldl (fun bb ig => bb.addAt ig.2 (fe ig.1)) st.2) := by
  induction Lo generalizing st with
  | nil => rfl
  | cons ig lo ih =>
      rw [List.foldl_cons, ih, List.foldl_cons, List.foldl_cons]

theorem foldl_addAt_row (Li : List (ℕ × ℕ)) (ig : ℕ × ℕ) (ke : ℕ → ℕ → ℝ)
    (a : DMat) (r c : ℕ) :
    (Li.foldl (fun aa jg => aa.addAt ig.2 jg.2 (ke ig.1 jg.1)) a).entry r c =
      a.entry r c +
        cooSum (Li.map (fun jg => ((ig.2, jg.2, ke ig.1 jg.1) : CooTriplet)))
          r c := by
  induction Li generalizing a with
  | nil => simp [cooSum_nil]
  | cons jg li ih =>
      rw [List.foldl_cons, ih, List.map_cons, cooSum_cons, DMat.addAt_entry]
      have : (if (ig.2, jg.2, ke ig.1 jg.1).1 = r ∧
            (ig.2, jg.2, ke ig.1 jg.1).2.1 = c then ke ig.1 jg.1 else 0) =
          (if r = ig.2 ∧ c = jg.2 then ke ig.1 jg.1 else 0) := by
        by_cases h : r = ig.2 ∧ c = jg.2
        · rw [if_pos ⟨h.1.symm, h.2.symm⟩, if_pos h]
        · rw [if_neg (fun hh => h ⟨hh.1.symm, hh.2.symm⟩), if_neg h]
      rw [this]
      ring

theorem foldl_nested_addAt_entry (Lo Li : List (ℕ × ℕ)) (ke : ℕ → ℕ → ℝ)
    (a : DMat) (r c : ℕ) :
    (Lo.foldl (fun aa ig =>
        Li.foldl (fun aa2 jg => aa2.addAt ig.2 jg.2 (ke ig.1 jg.1)) aa)
      a).entry r c =
      a.entry r c +
        cooSum ((Lo.map (fun ig =>
          Li.map (fun jg => ((ig.2, jg.2, ke ig.1 jg.1) : CooTriplet)))).flatten)
          r c := by
  induction Lo generalizing a with
  | nil => simp [cooSum_nil]
  | cons ig lo ih =>
      rw [List.foldl_cons, ih, List.map_cons, List.flatten_cons, cooSum_append,
        foldl_addAt_row]
      ring

theorem foldl_nested_append (Lo Li : List (ℕ × ℕ)) (ke : ℕ → ℕ → ℝ)
    (cc : List CooTriplet) :
    Lo.foldl (fun cc ig =>
        Li.foldl (fun cc2 jg => cc2 ++ [(ig.2, jg.2, ke ig.1 jg.1)]) cc) cc =
      cc ++ (Lo.map (fun ig =>
        Li.map (fun jg => ((ig.2, jg.2, ke ig.1 jg.1) : CooTriplet)))).flatten := by
  induction Lo generalizing cc with
  | nil => simp
  | cons ig lo ih =>
      rw [List.foldl_cons, ih, foldl_append_singleton, List.map_cons,
        List.flatten_cons, List.append_assoc]

theorem foldl_bscatter_entry (L : List (ℕ × ℕ)) (fe : ℕ → ℝ) (b : DVector)
    (k : ℕ) :
    (L.foldl (fun bb ig => bb.addAt ig.2 (fe ig.1)) b).entry k =
      b.entry k + rowVal (L.map (fun ig => (ig.2, fe ig.1))) k := by
  induction L generalizing b with
  | nil => simp [rowVal_nil]
  | cons ig l ih =>
      rw [List.foldl_cons, ih, List.map_cons, rowVal_cons, DVector.addAt_val]
      have : (if (ig.2, fe ig.1).1 = k then fe ig.1 else 0) =
          (if k = ig.2 then fe ig.1 else 0) := by
        by_cases h : k = ig.2
        · rw [if_pos h.symm, if_pos h]
        · rw [if_neg (fun hh => h hh.symm), if_neg h]
      rw [this]
      ring

theorem elementStepDense_none (mesh : Mesh2d) (ref : ReferenceElement)
    (rule : QuadRule) (f : ℝ → ℝ → ℝ) (st : DMat × DVector) (e : Element)
    (h : elementKeFe ref rule (elementNodes mesh e) f = none) :
    elementStepDense mesh ref rule f st e = none := by
  rw [elementStepDense, h]

theorem elementStepSparse_none (mesh : Mesh2d) (ref : ReferenceElement)
    (rule : QuadRule) (f : ℝ → ℝ → ℝ) (st : List CooTriplet × DVector)
    (e : Element)
    (h : elementKeFe ref rule (elementNodes mesh e) f = none) :
    elementStepSparse mesh ref rule f st e = none := by
  rw [elementStepSparse, h]

theorem elementStepDense_some (mesh : Mesh2d) (ref : ReferenceElement)
    (rule : QuadRule) (f : ℝ → ℝ → ℝ) (st : DMat × DVector) (e : Element)
    (kefe : (ℕ → ℕ → ℝ) × (ℕ → ℝ))
    (h : elementKeFe ref rule (elementNodes mesh e) f = some kefe) :
    elementStepDense mesh ref rule f st e = some
      (e.indices.enum.foldl (fun aa ig =>
          e.indices.enum.foldl
            (fun aa2 jg => aa2.addAt ig.2 jg.2 (kefe.1 ig.1 jg.1)) aa) st.1,
       e.indices.enum.foldl (fun bb ig => bb.addAt ig.2 (kefe.2 ig.1)) st.2) := by
  simp only [elementStepDense, h]
  rw [scatter_pair_eq_dense]

theorem elementStepSparse_some (mesh : Mesh2d) (ref : ReferenceElement)
    (rule : QuadRule) (f : ℝ → ℝ → ℝ) (st : List CooTriplet × DVector)
    (e : Element) (kefe : (ℕ → ℕ → ℝ) × (ℕ → ℝ))
    (h : elementKeFe ref rule (elementNodes mesh e) f = some kefe) :
    elementStepSparse mesh ref rule f st e = some
      (st.1 ++ elemTriplets e.indices.enum kefe.1,
       e.indices.enum.foldl (fun bb ig => bb.addAt ig.2 (kefe.2 ig.1)) st.2) := by
  simp only [elementStepSparse, h]
  rw [scatter_pair_eq_sparse, foldl_nested_append]
  rfl

/-! ## CSR-from-COO characterization -/

theorem fromCoo_rows_lt (nr nc : ℕ) (coo : List CooTriplet) (i : ℕ)
    (h : i < nr) :
    (CsrMatrix.fromCoo nr nc coo).rows i =
      ((coo.filterMap (fun t => if t.1 = i then some t.2.1 else none)).dedup).map
        (fun c => (c, cooSum coo i c)) := by
  simp only [CsrMatrix.fromCoo]
  rw [if_pos h]
  rfl

theorem fromCoo_rows_ge (nr nc : ℕ) (coo : List CooTriplet) (i : ℕ)
    (h : nr ≤ i) : (CsrMatrix.fromCoo nr nc coo).rows i = [] := by
  simp only [CsrMatrix.fromCoo]
  rw [if_neg (Nat.not_lt.2 h)]

theorem mem_filterMap_cols (coo : List CooTriplet) (i c : ℕ) :
    (c ∈ coo.filterMap (fun t => if t.1 = i then some t.2.1 else none)) ↔
      ∃ t ∈ coo, t.1 = i ∧ t.2.1 = c := by
  rw [List.mem_filterMap]
  constructor
  · rintro ⟨t, ht, hc⟩
    by_cases h1 : t.1 = i
    · rw [if_pos h1] at hc
      exact ⟨t, ht, h1, Option.some.inj hc⟩
    · rw [if_neg h1] at hc
      cases hc
  · rintro ⟨t, ht, h1, h2⟩
    exact ⟨t, ht, by rw [if_pos h1, h2]⟩

theorem rowVal_map_pairs (cols : List ℕ) (v : ℕ → ℝ) (c : ℕ)
    (hnd : cols.Nodup) :
    rowVal (cols.map (fun c' => (c', v c'))) c = if c ∈ cols then v c else 0 := by
  induction cols with
  | nil => simp [rowVal_nil]
  | cons c0 t ih =>
      rw [List.map_cons, rowVal_cons]
      rw [List.nodup_cons] at hnd
      by_cases h : c0 = c
      · subst h
        rw [if_pos rfl, ih hnd.2, if_neg hnd.1, if_pos (List.mem_cons_self _ _),
          add_zero]
      · rw [if_neg h, ih hnd.2, zero_add]
        by_cases hc : c ∈ t
        · rw [if_pos hc, if_pos (List.mem_cons_of_mem _ hc)]
        · rw [if_neg hc, if_neg (fun hh => by
            rcases List.mem_cons.1 hh with hh | hh
            · exact h hh.symm
            · exact hc hh)]

theorem map_fst_map_pairs (cols : List ℕ) (v : ℕ → ℝ) :
    (cols.map (fun c' => (c', v c'))).map Prod.fst = cols := by
  induction cols with
  | nil => rfl
  | cons c0 t ih => simp only [List.map_cons, ih]

theorem fromCoo_map_fst (nr nc : ℕ) (coo : List CooTriplet) (i : ℕ)
    (h : i < nr) :
    ((CsrMatrix.fromCoo nr nc coo).rows i).map Prod.fst =
      (coo.filterMap (fun t => if t.1 = i then some t.2.1 else none)).dedup := by
  rw [fromCoo_rows_lt nr nc coo i h, map_fst_map_pairs]

theorem fromCoo_wf (nr nc : ℕ) (coo : List CooTriplet) :
    (CsrMatrix.fromCoo nr nc coo).Wf := by
  constructor
  · intro i
    by_cases h : i < nr
    · rw [fromCoo_map_fst nr nc coo i h]
      exact List.nodup_dedup _
    · rw [fromCoo_rows_ge nr nc coo i (Nat.le_of_not_lt h)]
      exact List.nodup_nil
  · intro i hi
    exact fromCoo_rows_ge nr nc coo i hi

theorem fromCoo_densify (nr nc : ℕ) (coo : List CooTriplet)
    (hb : ∀ t ∈ coo, t.1 < nr) (r c : ℕ) :
    (CsrMatrix.fromCoo nr nc coo).densify r c = cooSum coo r c := by
  by_cases hr : r < nr
  · rw [CsrMatrix.densify, fromCoo_rows_lt nr nc coo r hr,
      rowVal_map_pairs _ _ _ (List.nodup_dedup _)]
    by_cases hc : c ∈ (coo.filterMap
        (fun t => if t.1 = r then some t.2.1 else none)).dedup
    · rw [if_pos hc]
    · rw [if_neg hc]
      symm
      apply cooSum_eq_zero
      intro t ht hcontra
      exact hc (by
        rw [List.mem_dedup, mem_filterMap_cols]
        exact ⟨t, ht, hcontra.1, hcontra.2⟩)
  · rw [CsrMatrix.densify, fromCoo_rows_ge nr nc coo r (Nat.le_of_not_lt hr),
      rowVal_nil]
    symm
    apply cooSum_eq_zero
    intro t ht hcontra
    exact hr (hcontra.1 ▸ hb t ht)

theorem fromCoo_storedAt (nr nc : ℕ) (coo : List CooTriplet) (r c : ℕ) :
    (CsrMatrix.fromCoo nr nc coo).storedAt r c ↔
      r < nr ∧ ∃ t ∈ coo, t.1 = r ∧ t.2.1 = c := by
  unfold CsrMatrix.storedAt
  by_cases hr : r < nr
  · rw [fromCoo_map_fst nr nc coo r hr, List.mem_dedup, mem_filterMap_cols]
    simp [hr]
  · rw [fromCoo_rows_ge nr nc coo r (Nat.le_of_not_lt hr)]
    simp [hr]

/-! ## Joint dense/sparse assembly characterization -/

theorem DMat.addAt_nrows (a : DMat) (i j : ℕ) (v : ℝ) :
    (a.addAt i j v).nrows = a.nrows := rfl

theorem DMat.addAt_ncols (a : DMat) (i j : ℕ) (v : ℝ) :
    (a.addAt i j v).ncols = a.ncols := rfl

theorem DVector.addAt_len (b : DVector) (i : ℕ) (v : ℝ) :
    (b.addAt i v).len = b.len := rfl

theorem ruleFor_eq (t : ElementType) : ruleFor t = some (quadRuleDefault t) := by
  cases t <;> rfl

theorem Mesh2d.wf_spec {mesh : Mesh2d} (hwf : mesh.Wf) :
    ∀ e ∈ mesh.elements,
      e.indices.length = (refElementFor mesh.element_type).num_nodes ∧
      ∀ i ∈ e.indices, i < mesh.vertices.length := by
  intro e he
  have h := hwf
  unfold Mesh2d.Wf Mesh2d.wfBool at h
  rw [List.all_eq_true] at h
  have h2 := h e he
  rw [Bool.and_eq_true, decide_eq_true_eq, List.all_eq_true] at h2
  refine ⟨h2.1, fun i hi => ?_⟩
  have h3 := h2.2 i hi
  rwa [decide_eq_true_eq] at h3

theorem mem_elemTriplets {idx : List (ℕ × ℕ)} {ke : ℕ → ℕ → ℝ}
    {t : CooTriplet} (ht : t ∈ elemTriplets idx ke) :
    ∃ ig ∈ idx, ∃ jg ∈ idx, t = (ig.2, jg.2, ke ig.1 jg.1) := by
  unfold elemTriplets at ht
  rw [List.mem_flatten] at ht
  obtain ⟨l, hl, htl⟩ := ht
  rw [List.mem_map] at hl
  obtain ⟨ig, hig, rfl⟩ := hl
  rw [List.mem_map] at htl
  obtain ⟨jg, hjg, rfl⟩ := htl
  exact ⟨ig, hig, jg, hjg, rfl⟩

theorem foldl_addAt_row_nrows (Li : List (ℕ × ℕ)) (ig : ℕ × ℕ)
    (ke : ℕ → ℕ → ℝ) (a : DMat) :
    (Li.foldl (fun aa jg => aa.addAt ig.2 jg.2 (ke ig.1 jg.1)) a).nrows =
      a.nrows := by
  induction Li generalizing a with
  | nil => rfl
  | cons jg li ih => rw [List.foldl_cons, ih]; rfl

theorem foldl_addAt_row_ncols (Li : List (ℕ × ℕ)) (ig : ℕ × ℕ)
    (ke : ℕ → ℕ → ℝ) (a : DMat) :
    (Li.foldl (fun aa jg => aa.addAt ig.2 jg.2 (ke ig.1 jg.1)) a).ncols =
      a.ncols := by
  induction Li generalizing a with
  | nil => rfl
  | cons jg li ih => rw [List.foldl_cons, ih]; rfl

theorem foldl_nested_addAt_nrows (Lo Li : List (ℕ × ℕ)) (ke : ℕ → ℕ → ℝ)
    (a : DMat) :
    (Lo.foldl (fun aa ig =>
        Li.foldl (fun aa2 jg => aa2.addAt ig.2 jg.2 (ke ig.1 jg.1)) aa)
      a).nrows = a.nrows := by
  induction Lo generalizing a with
  | nil => rfl
  | cons ig lo ih => rw [List.foldl_cons, ih, foldl_addAt_row_nrows]

theorem foldl_nested_addAt_ncols (Lo Li : List (ℕ × ℕ)) (ke : ℕ → ℕ → ℝ)
    (a : DMat) :
    (Lo.foldl (fun aa ig =>
        Li.foldl (fun aa2 jg => aa2.addAt ig.2 jg.2 (ke ig.1 jg.1)) aa)
      a).ncols = a.ncols := by
  induction Lo generalizing a with
  | nil => rfl
  | cons ig lo ih => rw [List.foldl_cons, ih, foldl_addAt_row_ncols]

theorem foldl_bscatter_len (L : List (ℕ × ℕ)) (fe : ℕ → ℝ) (b : DVector) :
    (L.foldl (fun bb ig => bb.addAt ig.2 (fe ig.1)) b).len = b.len := by
  induction L generalizing b with
  | nil => rfl
  | cons ig l ih => rw [List.foldl_cons, ih]; rfl

theorem assemble_systems_agree (mesh : Mesh2d) (f : ℝ → ℝ → ℝ)
    (hwf : mesh.Wf) :
    (assemble_system_dense mesh f = none ∧
      assemble_system_sparse mesh f = none) ∨
    ∃ Ad bd As bs,
      assemble_system_dense mesh f = some (Ad, bd) ∧
      assemble_system_sparse mesh f = some (As, bs) ∧
      (∀ r c, Ad.entry r c = As.densify r c) ∧
      (∀ k, bd.entry k = bs.entry k) ∧
      Ad.nrows = mesh.vertices.length ∧ Ad.ncols = mesh.vertices.length ∧
      bd.len = mesh.vertices.length ∧ As.nrows = mesh.vertices.length ∧
      As.ncols = mesh.vertices.length ∧ bs.len = mesh.vertices.length := by
  have hrel := foldlM_option_rel mesh.elements
    (elementStepDense mesh (refElementFor mesh.element_type)
      (quadRuleDefault mesh.element_type) f)
    (elementStepSparse mesh (refElementFor mesh.element_type)
      (quadRuleDefault mesh.element_type) f)
    (AssembleInv mesh.vertices.length)
    (by
      intro sd ss e he hR
      cases hke : elementKeFe (refElementFor mesh.element_type)
          (quadRuleDefault mesh.element_type) (elementNodes mesh e) f with
      | none =>
          exact Or.inl ⟨elementStepDense_none _ _ _ _ _ _ hke,
            elementStepSparse_none _ _ _ _ _ _ hke⟩
      | some kefe =>
          refine Or.inr ⟨_, _, elementStepDense_some _ _ _ _ _ _ _ hke,
            elementStepSparse_some _ _ _ _ _ _ _ hke, ?_, ?_, ?_, ?_, ?_, ?_, ?_⟩
          · intro r c
            rw [foldl_nested_addAt_entry, cooSum_append, hR.1 r c]
            rfl
          · intro k
            rw [foldl_bscatter_entry, foldl_bscatter_entry, hR.2.1 k]
          · rw [foldl_nested_addAt_nrows]
            exact hR.2.2.1
          · rw [foldl_nested_addAt_ncols]
            exact hR.2.2.2.1
          · rw [foldl_bscatter_len]
            exact hR.2.2.2.2.1
          · rw [foldl_bscatter_len]
            exact hR.2.2.2.2.2.1
          · intro t ht
            rcases List.mem_append.1 ht with ht | ht
            · exact hR.2.2.2.2.2.2 t ht
            · obtain ⟨ig, hig, jg, hjg, rfl⟩ := mem_elemTriplets ht
              have hbnd := (Mesh2d.wf_spec hwf e he).2
              exact ⟨hbnd _ (mem_enum_snd _ _ hig), hbnd _ (mem_enum_snd _ _ hjg)⟩)
    (DMat.zeros mesh.vertices.length mesh.vertices.length,
      DVector.zeros mesh.vertices.length)
    (([] : List CooTriplet), DVector.zeros mesh.vertices.length)
    (by
      refine ⟨fun r c => by simp [DMat.zeros, cooSum_nil], fun k => rfl,
        rfl, rfl, rfl, rfl, fun t ht => absurd ht (List.not_mem_nil t)⟩)
  rcases hrel with ⟨hd, hs⟩ | ⟨sd, ss, hd, hs, hR⟩
  · refine Or.inl ⟨?_, ?_⟩
    · simp only [assemble_system_dense, ruleFor_eq]
      exact hd
    · simp only [assemble_system_sparse, ruleFor_eq]
      rw [hs]
  · refine Or.inr ⟨sd.1,
      sd.2, CsrMatrix.fromCoo mesh.vertices.length mesh.vertices.length ss.1,
      ss.2, ?_, ?_, ?_, hR.2.1, hR.2.2.1, hR.2.2.2.1, hR.2.2.2.2.1, rfl, rfl,
      hR.2.2.2.2.2.1⟩
    · simp only [assemble_system_dense, ruleFor_eq]
      rw [hd]
    · simp only [assemble_system_sparse, ruleFor_eq]
      rw [hs]
    · intro r c
      rw [hR.1 r c,
        fromCoo_densify _ _ _ (fun t ht => (hR.2.2.2.2.2.2 t ht).1) r c]

/-! ## Assembly success/failure characterization -/

theorem try_inverse_isSome (m : Matrix2) :
    m.try_inverse.isSome ↔ m.determinant ≠ 0 := by
  unfold Matrix2.try_inverse
  split_ifs with h <;> simp [h]

theorem quadPointUpdate_isSome (ref : ReferenceElement) (nodes : List Point2)
    (f : ℝ → ℝ → ℝ) (kefe : (ℕ → ℕ → ℝ) × (ℕ → ℝ)) (qw : Point2 × ℝ) :
    (quadPointUpdate ref nodes f kefe qw).isSome ↔
      (ref.jacobian nodes qw.1).determinant ≠ 0 := by
  rw [← try_inverse_isSome]
  unfold quadPointUpdate
  cases h : (ref.jacobian nodes qw.1).try_inverse <;> simp [h]

theorem elementKeFe_isSome (ref : ReferenceElement) (rule : QuadRule)
    (nodes : List Point2) (f : ℝ → ℝ → ℝ) :
    (elementKeFe ref rule nodes f).isSome ↔
      ∀ qw ∈ rule.points.zip rule.weights,
        (ref.jacobian nodes qw.1).determinant ≠ 0 :=
  foldlM_option_isSome _ _ _ (fun s qw => quadPointUpdate_isSome ref nodes f s qw) _

theorem elementStepDense_isSome (mesh : Mesh2d) (ref : ReferenceElement)
    (rule : QuadRule) (f : ℝ → ℝ → ℝ) (st : DMat × DVector) (e : Element) :
    (elementStepDense mesh ref rule f st e).isSome ↔
      (elementKeFe ref rule (elementNodes mesh e) f).isSome := by
  cases hke : elementKeFe ref rule (elementNodes mesh e) f with
  | none => rw [elementStepDense_none _ _ _ _ _ _ hke]; simp
  | some kefe => rw [elementStepDense_some _ _ _ _ _ _ _ hke]; simp

theorem elementStepSparse_isSome (mesh : Mesh2d) (ref : ReferenceElement)
    (rule : QuadRule) (f : ℝ → ℝ → ℝ) (st : List CooTriplet × DVector)
    (e : Element) :
    (elementStepSparse mesh ref rule f st e).isSome ↔
      (elementKeFe ref rule (elementNodes mesh e) f).isSome := by
  cases hke : elementKeFe ref rule (elementNodes mesh e) f with
  | none => rw [elementStepSparse_none _ _ _ _ _ _ hke]; simp
  | some kefe => rw [elementStepSparse_some _ _ _ _ _ _ _ hke]; simp

theorem quadRuleDefault_zip_fst (t : ElementType) :
    ((quadRuleDefault t).points.zip (quadRuleDefault t).weights).map Prod.fst =
      (quadRuleDefault t).points := by
  cases t <;> rfl

theorem zip_invertible_iff (mesh : Mesh2d) (e : Element) :
    (∀ qw ∈ (quadRuleDefault mesh.element_type).points.zip
        (quadRuleDefault mesh.element_type).weights,
      ((refElementFor mesh.element_type).jacobian (elementNodes mesh e)
        qw.1).determinant ≠ 0) ↔
    (∀ p ∈ (quadRuleDefault mesh.element_type).points,
      ((refElementFor mesh.element_type).jacobian (elementNodes mesh e)
        p).determinant ≠ 0) := by
  constructor
  · intro h p hp
    have hp' : p ∈ ((quadRuleDefault mesh.element_type).points.zip
        (quadRuleDefault mesh.element_type).weights).map Prod.fst := by
      rw [quadRuleDefault_zip_fst]
      exact hp
    rw [List.mem_map] at hp'
    obtain ⟨qw, hqw, rfl⟩ := hp'
    exact h qw hqw
  · intro h qw hqw
    have : qw.1 ∈ ((quadRuleDefault mesh.element_type).points.zip
        (quadRuleDefault mesh.element_type).weights).map Prod.fst :=
      List.mem_map_of_mem Prod.fst hqw
    rw [quadRuleDefault_zip_fst] at this
    exact h qw.1 this

theorem assemble_dense_isSome_iff (mesh : Mesh2d) (f : ℝ → ℝ → ℝ) :
    (assemble_system_dense mesh f).isSome ↔ allJacobiansInvertible mesh := by
  simp only [assemble_system_dense, ruleFor_eq]
  rw [foldlM_option_isSome mesh.elements _
    (fun e => (elementKeFe (refElementFor mesh.element_type)
      (quadRuleDefault mesh.element_type) (elementNodes mesh e) f).isSome)
    (fun st e => elementStepDense_isSome mesh _ _ f st e)]
  unfold allJacobiansInvertible
  constructor
  · intro h e he
    rw [← zip_invertible_iff]
    rw [← elementKeFe_isSome]
    exact h e he
  · intro h e he
    rw [elementKeFe_isSome, zip_invertible_iff]
    exact h e he

theorem assemble_sparse_isSome_iff (mesh : Mesh2d) (f : ℝ → ℝ → ℝ) :
    (assemble_system_sparse mesh f).isSome ↔ allJacobiansInvertible mesh := by
  simp only [assemble_system_sparse, ruleFor_eq]
  have hfold := foldlM_option_isSome mesh.elements
    (elementStepSparse mesh (refElementFor mesh.element_type)
      (quadRuleDefault mesh.element_type) f)
    (fun e => (elementKeFe (refElementFor mesh.element_type)
      (quadRuleDefault mesh.element_type) (elementNodes mesh e) f).isSome)
    (fun st e => elementStepSparse_isSome mesh _ _ f st e)
    (([] : List CooTriplet), DVector.zeros mesh.vertices.length)
  cases hf : mesh.elements.foldlM
      (elementStepSparse mesh (refElementFor mesh.element_type)
        (quadRuleDefault mesh.element_type) f)
      (([] : List CooTriplet), DVector.zeros mesh.vertices.length) with
  | none =>
      rw [hf] at hfold
      simp only [Option.isSome_none, Bool.false_eq_true, false_iff] at hfold
      simp only [Option.isSome_none, Bool.false_eq_true, false_iff]
      intro hcon
      apply hfold
      intro e he
      rw [elementKeFe_isSome, zip_invertible_iff]
      exact hcon e he
  | some st =>
      rw [hf] at hfold
      simp only [Option.isSome_some, true_iff] at hfold
      simp only [Option.isSome_some, true_iff]
      intro e he
      rw [← zip_invertible_iff, ← elementKeFe_isSome]
      exact hfold e he

/-! ## Symmetry of the assembled stiffness matrix -/

theorem Vector2.dot_comm (u v : Vector2) : u.dot v = v.dot u := by
  unfold Vector2.dot
  ring

theorem sum_map_zero {α : Type} (L : List α) :
    (L.map (fun _ => (0 : ℝ))).sum = 0 := by
  induction L with
  | nil => rfl
  | cons x l ih => simp [ih]

theorem sum_map_add {α : Type} (L : List α) (f g : α → ℝ) :
    (L.map (fun x => f x + g x)).sum = (L.map f).sum + (L.map g).sum := by
  induction L with
  | nil => simp
  | cons x l ih =>
      simp only [List.map_cons, List.sum_cons, ih]
      ring

theorem list_sum_comm {α β : Type} (L1 : List α) (L2 : List β)
    (f : α → β → ℝ) :
    (L1.map (fun x => (L2.map (f x)).sum)).sum =
      (L2.map (fun y => (L1.map (fun x => f x y)).sum)).sum := by
  induction L1 with
  | nil => simp [sum_map_zero]
  | cons x l ih =>
      simp only [List.map_cons, List.sum_cons, ih]
      rw [sum_map_add]

theorem cooSum_map_row (Li : List (ℕ × ℕ)) (i0 g0 : ℕ) (ke : ℕ → ℕ → ℝ)
    (r c : ℕ) :
    cooSum (Li.map (fun jg => ((g0, jg.2, ke i0 jg.1) : CooTriplet))) r c =
      (Li.map (fun jg => if g0 = r ∧ jg.2 = c then ke i0 jg.1 else 0)).sum := by
  induction Li with
  | nil => rfl
  | cons jg li ih =>
      rw [List.map_cons, cooSum_cons, List.map_cons, List.sum_cons, ih]

theorem cooSum_elemTriplets (L : List (ℕ × ℕ)) (ke : ℕ → ℕ → ℝ) (r c : ℕ) :
    cooSum (elemTriplets L ke) r c =
      (L.map (fun ig =>
        (L.map (fun jg => if ig.2 = r ∧ jg.2 = c then ke ig.1 jg.1 else 0)).sum)).sum := by
  unfold elemTriplets
  rw [cooSum_join_map]
  have h : (fun ig => cooSum
      (L.map (fun jg => ((ig.2, jg.2, ke ig.1 jg.1) : CooTriplet))) r c) =
      (fun ig : ℕ × ℕ =>
        (L.map (fun jg => if ig.2 = r ∧ jg.2 = c then ke ig.1 jg.1 else 0)).sum) :=
    funext fun ig => cooSum_map_row L ig.1 ig.2 ke r c
  rw [h]

theorem cooSum_elemTriplets_symm (L : List (ℕ × ℕ)) (ke : ℕ → ℕ → ℝ)
    (hke : ∀ i j, ke i j = ke j i) (r c : ℕ) :
    cooSum (elemTriplets L ke) r c = cooSum (elemTriplets L ke) c r := by
  rw [cooSum_elemTriplets, cooSum_elemTriplets]
  conv_rhs => rw [list_sum_comm]
  congr 1
  congr 1
  funext ig
  congr 1
  congr 1
  funext jg
  by_cases h : ig.2 = r ∧ jg.2 = c
  · rw [if_pos h, if_pos ⟨h.2, h.1⟩]
    exact hke ig.1 jg.1
  · rw [if_neg h, if_neg (fun hh => h ⟨hh.2, hh.1⟩)]

theorem quadPointUpdate_some_symm {ref : ReferenceElement}
    {nodes : List Point2} {f : ℝ → ℝ → ℝ} {kefe kefe' : (ℕ → ℕ → ℝ) × (ℕ → ℝ)}
    {qw : Point2 × ℝ}
    (h : quadPointUpdate ref nodes f kefe qw = some kefe')
    (hs : ∀ i j, kefe.1 i j = kefe.1 j i) :
    ∀ i j, kefe'.1 i j = kefe'.1 j i := by
  cases hti : (ReferenceElement.jacobian ref nodes qw.1).try_inverse with
  | none =>
      simp only [quadPointUpdate, hti] at h
      exact Option.noConfusion h
  | some jinv =>
      simp only [quadPointUpdate, hti] at h
      obtain rfl := Option.some.inj h
      intro i j
      dsimp only
      by_cases hij : i < ref.num_nodes ∧ j < ref.num_nodes
      · rw [if_pos hij, if_pos ⟨hij.2, hij.1⟩, hs i j, Vector2.dot_comm]
      · rw [if_neg hij, if_neg (fun hh => hij ⟨hh.2, hh.1⟩), hs i j]

theorem elementKeFe_symm {ref : ReferenceElement} {rule : QuadRule}
    {nodes : List Point2} {f : ℝ → ℝ → ℝ} {kefe : (ℕ → ℕ → ℝ) × (ℕ → ℝ)}
    (h : elementKeFe ref rule nodes f = some kefe) :
    ∀ i j, kefe.1 i j = kefe.1 j i :=
  foldlM_option_invariant (fun s => ∀ i j, s.1 i j = s.1 j i) _ _
    (fun s x s' _ hstep hs => quadPointUpdate_some_symm hstep hs) _ _ h
    (fun i j => rfl)

theorem elemTriplets_def (idx : List (ℕ × ℕ)) (ke : ℕ → ℕ → ℝ) :
    ((idx.map (fun ig =>
      idx.map (fun jg => ((ig.2, jg.2, ke ig.1 jg.1) : CooTriplet)))).flatten) =
      elemTriplets idx ke := rfl

theorem assemble_dense_symm (mesh : Mesh2d) (f : ℝ → ℝ → ℝ) (Ad : DMat)
    (bd : DVector) (h : assemble_system_dense mesh f = some (Ad, bd)) :
    ∀ r c, Ad.entry r c = Ad.entry c r := by
  have h' : mesh.elements.foldlM
      (elementStepDense mesh (refElementFor mesh.element_type)
        (quadRuleDefault mesh.element_type) f)
      (DMat.zeros mesh.vertices.length mesh.vertices.length,
        DVector.zeros mesh.vertices.length) = some (Ad, bd) := by
    simpa only [assemble_system_dense, ruleFor_eq] using h
  have hinv := foldlM_option_invariant
    (fun st : DMat × DVector => ∀ r c, st.1.entry r c = st.1.entry c r)
    mesh.elements _
    (by
      intro st e st' _ hstep hsym
      cases hke : elementKeFe (refElementFor mesh.element_type)
          (quadRuleDefault mesh.element_type) (elementNodes mesh e) f with
      | none =>
          rw [elementStepDense_none _ _ _ _ _ _ hke] at hstep
          cases hstep
      | some kefe =>
          rw [elementStepDense_some _ _ _ _ _ _ _ hke] at hstep
          obtain rfl := (Option.some.inj hstep).symm
          intro r c
          dsimp only
          rw [foldl_nested_addAt_entry, foldl_nested_addAt_entry, hsym r c,
            elemTriplets_def,
            cooSum_elemTriplets_symm _ _ (elementKeFe_symm hke) r c])
    _ _ h' (fun r c => rfl)
  exact hinv

/-! ## Row-level lemmas for the sparse Dirichlet step -/

theorem writeAtCol_map_fst (l : List (ℕ × ℝ)) (j : ℕ) (v : ℝ) :
    (writeAtCol l j v).map Prod.fst = l.map Prod.fst := by
  unfold writeAtCol
  cases hfp : findPos l j with
  | none => rfl
  | some pos => exact setValAt_map_fst l pos v

theorem writeAtCol_rowVal_self (l : List (ℕ × ℝ)) (j : ℕ) (v : ℝ)
    (hnd : (l.map Prod.fst).Nodup) (hmem : j ∈ l.map Prod.fst) :
    rowVal (writeAtCol l j v) j = v := by
  unfold writeAtCol
  cases hfp : findPos l j with
  | none =>
      rw [findPos_eq_none] at hfp
      exact absurd hmem hfp
  | some pos => exact rowVal_setValAt_self l j pos v hnd hfp

theorem writeAtCol_not_stored (l : List (ℕ × ℝ)) (j : ℕ) (v : ℝ)
    (hmem : j ∉ l.map Prod.fst) : writeAtCol l j v = l := by
  unfold writeAtCol
  rw [(findPos_eq_none l j).2 hmem]

theorem writeAtCol_rowVal_other (l : List (ℕ × ℝ)) (j : ℕ) (v : ℝ) (c : ℕ)
    (hc : c ≠ j) : rowVal (writeAtCol l j v) c = rowVal l c := by
  unfold writeAtCol
  cases hfp : findPos l j with
  | none => rfl
  | some pos => exact rowVal_setValAt_other l j pos v c hfp hc

/-! ## The sparse Dirichlet step, characterized -/

theorem dirichletSparseStep_nrows (a : CsrMatrix) (b : DVector) (jg : ℕ × ℝ) :
    (dirichletSparseStep a b jg).1.nrows = a.nrows := rfl

theorem dirichletSparseStep_ncols (a : CsrMatrix) (b : DVector) (jg : ℕ × ℝ) :
    (dirichletSparseStep a b jg).1.ncols = a.ncols := rfl

theorem dirichletSparseStep_len (a : CsrMatrix) (b : DVector) (jg : ℕ × ℝ) :
    (dirichletSparseStep a b jg).2.len = b.len := rfl

theorem dirichletSparseStep_rows_self (a : CsrMatrix) (b : DVector) (j : ℕ)
    (gj : ℝ) (hj : j < a.nrows) :
    (dirichletSparseStep a b (j, gj)).1.rows j =
      writeAtCol (writeAtCol (zeroVals (a.rows j)) j 0) j 1 := by
  simp only [dirichletSparseStep]
  simp only [if_true]
  rw [if_pos hj]

theorem dirichletSparseStep_rows_self_deg (a : CsrMatrix) (b : DVector)
    (j : ℕ) (gj : ℝ) (hj : ¬j < a.nrows) :
    (dirichletSparseStep a b (j, gj)).1.rows j =
      writeAtCol (zeroVals (a.rows j)) j 1 := by
  simp only [dirichletSparseStep]
  simp only [if_true]
  rw [if_neg hj]

theorem dirichletSparseStep_rows_other (a : CsrMatrix) (b : DVector) (j : ℕ)
    (gj : ℝ) (r : ℕ) (hr : r ≠ j) :
    (dirichletSparseStep a b (j, gj)).1.rows r =
      if r < a.nrows then writeAtCol (a.rows r) j 0 else a.rows r := by
  simp only [dirichletSparseStep]
  rw [if_neg hr]
  by_cases hrn : r < a.nrows
  · rw [if_pos hrn, if_pos hrn, if_neg hr]
  · rw [if_neg hrn, if_neg hrn, if_neg hr]

theorem dirichletSparseStep_pattern (a : CsrMatrix) (b : DVector) (j : ℕ)
    (gj : ℝ) (r : ℕ) :
    ((dirichletSparseStep a b (j, gj)).1.rows r).map Prod.fst =
      (a.rows r).map Prod.fst := by
  by_cases hr : r = j
  · subst hr
    by_cases hj : r < a.nrows
    · rw [dirichletSparseStep_rows_self a b r gj hj, writeAtCol_map_fst,
        writeAtCol_map_fst, zeroVals_map_fst]
    · rw [dirichletSparseStep_rows_self_deg a b r gj hj, writeAtCol_map_fst,
        zeroVals_map_fst]
  · rw [dirichletSparseStep_rows_other a b j gj r hr]
    by_cases hrn : r < a.nrows
    · rw [if_pos hrn, writeAtCol_map_fst]
    · rw [if_neg hrn]

theorem dirichletSparseStep_wf (a : CsrMatrix) (b : DVector) (jg : ℕ × ℝ)
    (hwf : a.Wf) : (dirichletSparseStep a b jg).1.Wf := by
  constructor
  · intro i
    rw [show jg = (jg.1, jg.2) from rfl, dirichletSparseStep_pattern]
    exact hwf.1 i
  · intro i hi
    rw [dirichletSparseStep_nrows] at hi
    have hp : ((dirichletSparseStep a b jg).1.rows i).map Prod.fst = [] := by
      rw [show jg = (jg.1, jg.2) from rfl, dirichletSparseStep_pattern,
        hwf.2 i hi]
      rfl
    exact List.map_eq_nil_iff.1 hp

theorem dirichletSparseStep_densify_self (a : CsrMatrix) (b : DVector)
    (j : ℕ) (gj : ℝ) (hwf : a.Wf) (hj : j < a.nrows) (c : ℕ) :
    (dirichletSparseStep a b (j, gj)).1.densify j c =
      if c = j ∧ a.storedAt j j then 1 else 0 := by
  have hnd0 : ((zeroVals (a.rows j)).map Prod.fst).Nodup := by
    rw [zeroVals_map_fst]
    exact hwf.1 j
  have hnd1 : ((writeAtCol (zeroVals (a.rows j)) j 0).map Prod.fst).Nodup := by
    rw [writeAtCol_map_fst, zeroVals_map_fst]
    exact hwf.1 j
  have hzero : ∀ c', rowVal (writeAtCol (zeroVals (a.rows j)) j 0) c' = 0 := by
    intro c'
    by_cases hc' : c' = j
    · by_cases hmem : j ∈ (zeroVals (a.rows j)).map Prod.fst
      · rw [hc', writeAtCol_rowVal_self _ _ _ hnd0 hmem]
      · rw [hc', writeAtCol_not_stored _ _ _ hmem]
        exact rowVal_zeroVals _ _
    · rw [writeAtCol_rowVal_other _ _ _ _ hc']
      exact rowVal_zeroVals _ _
  have hstored : a.storedAt j j ↔
      j ∈ (writeAtCol (zeroVals (a.rows j)) j 0).map Prod.fst := by
    rw [writeAtCol_map_fst, zeroVals_map_fst]
  rw [CsrMatrix.densify, dirichletSparseStep_rows_self a b j gj hj]
  by_cases hc : c = j
  · by_cases hmem : a.storedAt j j
    · rw [if_pos ⟨hc, hmem⟩, hc]
      exact writeAtCol_rowVal_self _ _ _ hnd1 (hstored.1 hmem)
    · rw [if_neg (fun hh => hmem hh.2), hc,
        writeAtCol_not_stored _ _ _ (fun hm => hmem (hstored.2 hm)), hzero]
  · rw [writeAtCol_rowVal_other _ _ _ _ hc, hzero,
      if_neg (fun hh => hc hh.1)]

theorem dirichletSparseStep_densify_other (a : CsrMatrix) (b : DVector)
    (j : ℕ) (gj : ℝ) (hwf : a.Wf) (r : ℕ) (hr : r ≠ j) (c : ℕ) :
    (dirichletSparseStep a b (j, gj)).1.densify r c =
      if c = j ∧ r < a.nrows then 0 else a.densify r c := by
  rw [CsrMatrix.densify, dirichletSparseStep_rows_other a b j gj r hr]
  by_cases hrn : r < a.nrows
  · rw [if_pos hrn]
    by_cases hc : c = j
    · rw [if_pos ⟨hc, hrn⟩]
      by_cases hmem : j ∈ (a.rows r).map Prod.fst
      · rw [hc, writeAtCol_rowVal_self _ _ _ (hwf.1 r) hmem]
      · rw [writeAtCol_not_stored _ _ _ hmem, hc]
        exact rowVal_eq_zero_of_not_mem _ _ hmem
    · rw [writeAtCol_rowVal_other _ _ _ _ hc,
        if_neg (fun hh => hc hh.1)]
      rfl
  · rw [if_neg hrn, if_neg (fun hh => hrn hh.2)]
    rfl

theorem dirichletSparseStep_b_self (a : CsrMatrix) (b : DVector) (j : ℕ)
    (gj : ℝ) : (dirichletSparseStep a b (j, gj)).2.entry j = gj := by
  simp only [dirichletSparseStep, DVector.set]
  simp only [if_true]

theorem dirichletSparseStep_b_other (a : CsrMatrix) (b : DVector) (j : ℕ)
    (gj : ℝ) (hwf : a.Wf) (i : ℕ) (hi : i ≠ j) :
    (dirichletSparseStep a b (j, gj)).2.entry i =
      if i < a.nrows then b.entry i - a.densify i j * gj else b.entry i := by
  simp only [dirichletSparseStep, DVector.set]
  rw [if_neg hi]
  by_cases hin : i < a.nrows
  · rw [if_pos hin, if_pos hin]
    cases hfp : findPos (a.rows i) j with
    | none =>
        show b.entry i = b.entry i - a.densify i j * gj
        rw [findPos_eq_none] at hfp
        rw [CsrMatrix.densify, rowVal_eq_zero_of_not_mem _ _ hfp]
        ring
    | some pos =>
        show b.entry i - getValAt (a.rows i) pos * gj =
          b.entry i - a.densify i j * gj
        rw [getValAt_findPos (a.rows i) j pos (hwf.1 i) hfp]
        rfl
  · rw [if_neg hin, if_neg hin]

theorem sum_map_eq_zero {α : Type} {L : List α} {f : α → ℝ}
    (h : ∀ x ∈ L, f x = 0) : (L.map f).sum = 0 := by
  induction L with
  | nil => rfl
  | cons x l ih =>
      rw [List.map_cons, List.sum_cons, h x (List.mem_cons_self _ _),
        ih (fun y hy => h y (List.mem_cons_of_mem _ hy)), add_zero]

theorem sum_map_congr {α : Type} {L : List α} {f g : α → ℝ}
    (h : ∀ x ∈ L, f x = g x) : (L.map f).sum = (L.map g).sum := by
  induction L with
  | nil => rfl
  | cons x l ih =>
      rw [List.map_cons, List.map_cons, List.sum_cons, List.sum_cons,
        h x (List.mem_cons_self _ _),
        ih (fun y hy => h y (List.mem_cons_of_mem _ hy))]

theorem dirichletSparseStep_storedAt (a : CsrMatrix) (b : DVector) (j : ℕ)
    (gj : ℝ) (r c : ℕ) :
    ((dirichletSparseStep a b (j, gj)).1.storedAt r c) ↔ a.storedAt r c := by
  unfold CsrMatrix.storedAt
  rw [dirichletSparseStep_pattern]

/-- Full characterization of the in-sequence sparse Dirichlet elimination:
dimensions, sparsity pattern and well-formedness are preserved; every
boundary row/column is zeroed with the diagonal set to 1 exactly when it is
structurally stored; every boundary entry of `b` is pinned to its value and
every other entry receives the accumulated column contributions of the
original matrix. -/
theorem dirichlet_sparse_fold_spec :
    ∀ (vals : List (ℕ × ℝ)) (a : CsrMatrix) (b : DVector),
      a.Wf → (vals.map Prod.fst).Nodup → (∀ jg ∈ vals, jg.1 < a.nrows) →
      ((vals.foldl (fun st jg => dirichletSparseStep st.1 st.2 jg)
          (a, b)).1.nrows = a.nrows) ∧
      ((vals.foldl (fun st jg => dirichletSparseStep st.1 st.2 jg)
          (a, b)).1.ncols = a.ncols) ∧
      ((vals.foldl (fun st jg => dirichletSparseStep st.1 st.2 jg)
          (a, b)).2.len = b.len) ∧
      (∀ r, (((vals.foldl (fun st jg => dirichletSparseStep st.1 st.2 jg)
          (a, b)).1.rows r).map Prod.fst) = (a.rows r).map Prod.fst) ∧
      (∀ r c, (vals.foldl (fun st jg => dirichletSparseStep st.1 st.2 jg)
          (a, b)).1.densify r c =
        if r ∈ vals.map Prod.fst then
          (if c = r ∧ a.storedAt r r then 1 else 0)
        else if c ∈ vals.map Prod.fst ∧ r < a.nrows then 0
        else a.densify r c) ∧
      (∀ jg ∈ vals, (vals.foldl (fun st jg => dirichletSparseStep st.1 st.2 jg)
          (a, b)).2.entry jg.1 = jg.2) ∧
      (∀ i, i ∉ vals.map Prod.fst →
        (vals.foldl (fun st jg => dirichletSparseStep st.1 st.2 jg)
          (a, b)).2.entry i =
          if i < a.nrows then
            b.entry i - (vals.map (fun jg => a.densify i jg.1 * jg.2)).sum
          else b.entry i) := by
  intro vals
  induction vals with
  | nil =>
      intro a b hwf hnd hbnd
      refine ⟨rfl, rfl, rfl, fun r => rfl, ?_, ?_, ?_⟩
      · intro r c
        simp [List.not_mem_nil]
      · intro jg hjg
        cases hjg
      · intro i _
        by_cases hin : i < a.nrows
        · simp [hin]
        · simp [hin]
  | cons jg0 vs ih =>
      obtain ⟨j0, g0⟩ := jg0
      intro a b hwf hnd hbnd
      have hj0n : j0 < a.nrows := hbnd (j0, g0) (List.mem_cons_self _ _)
      have hndt : (vs.map Prod.fst).Nodup := by
        rw [List.map_cons] at hnd
        exact (List.nodup_cons.1 hnd).2
      have hj0Kt : j0 ∉ vs.map Prod.fst := by
        rw [List.map_cons] at hnd
        exact (List.nodup_cons.1 hnd).1
      have hwf1 := dirichletSparseStep_wf a b (j0, g0) hwf
      have hbnd1 : ∀ jg ∈ vs, jg.1 < (dirichletSparseStep a b (j0, g0)).1.nrows := by
        intro jg hjg
        rw [dirichletSparseStep_nrows]
        exact hbnd jg (List.mem_cons_of_mem _ hjg)
      have IH := ih (dirichletSparseStep a b (j0, g0)).1
        (dirichletSparseStep a b (j0, g0)).2 hwf1 hndt hbnd1
      have hstepeq :
          dirichletSparseStep a b (j0, g0) =
          ((dirichletSparseStep a b (j0, g0)).1,
           (dirichletSparseStep a b (j0, g0)).2) := rfl
      rw [List.foldl_cons]
      rw [hstepeq]
      refine ⟨?_, ?_, ?_, ?_, ?_, ?_, ?_⟩
      · rw [IH.1, dirichletSparseStep_nrows]
      · rw [IH.2.1, dirichletSparseStep_ncols]
      · rw [IH.2.2.1, dirichletSparseStep_len]
      · intro r
        rw [IH.2.2.2.1 r, dirichletSparseStep_pattern]
      · intro r c
        rw [IH.2.2.2.2.1 r c]
        simp only [dirichletSparseStep_storedAt, dirichletSparseStep_nrows,
          List.map_cons, List.mem_cons]
        by_cases hrKt : r ∈ vs.map Prod.fst
        · rw [if_pos hrKt, if_pos (Or.inr hrKt)]
        · rw [if_neg hrKt]
          by_cases hr0 : r = j0
          · subst hr0
            by_cases hc2 : c ∈ vs.map Prod.fst ∧ r < a.nrows
            · rw [if_pos hc2, if_pos (Or.inl rfl),
                if_neg (fun hh : c = r ∧ a.storedAt r r =>
                  hj0Kt (hh.1 ▸ hc2.1))]
            · rw [if_neg hc2,
                dirichletSparseStep_densify_self a b r g0 hwf hj0n c,
                if_pos (Or.inl rfl)]
          · by_cases hc2 : c ∈ vs.map Prod.fst ∧ r < a.nrows
            · rw [if_pos hc2,
                if_neg (fun hh : r = j0 ∨ r ∈ vs.map Prod.fst =>
                  hh.elim hr0 hrKt),
                if_pos ⟨Or.inr hc2.1, hc2.2⟩]
            · rw [if_neg hc2,
                dirichletSparseStep_densify_other a b j0 g0 hwf r hr0 c,
                if_neg (fun hh : r = j0 ∨ r ∈ vs.map Prod.fst =>
                  hh.elim hr0 hrKt)]
              by_cases hcj : c = j0 ∧ r < a.nrows
              · rw [if_pos hcj, if_pos ⟨Or.inl hcj.1, hcj.2⟩]
              · rw [if_neg hcj,
                  if_neg (fun hh : (c = j0 ∨ c ∈ vs.map Prod.fst) ∧
                      r < a.nrows =>
                    hh.1.elim (fun h1 => hcj ⟨h1, hh.2⟩)
                      (fun h1 => hc2 ⟨h1, hh.2⟩))]
      · intro jg hjg
        rcases List.mem_cons.1 hjg with heq | hjg'
        · obtain rfl := heq
          rw [IH.2.2.2.2.2.2 j0 hj0Kt,
            if_pos (by rw [dirichletSparseStep_nrows]; exact hj0n),
            dirichletSparseStep_b_self,
            sum_map_eq_zero (fun jg hjg => by
              rw [dirichletSparseStep_densify_self a b j0 g0 hwf hj0n jg.1,
                if_neg (fun hh : jg.1 = j0 ∧ a.storedAt j0 j0 =>
                  hj0Kt (hh.1 ▸ List.mem_map_of_mem Prod.fst hjg)),
                zero_mul]),
            sub_zero]
        · exact IH.2.2.2.2.2.1 jg hjg'
      · intro i hi
        simp only [List.map_cons, List.mem_cons] at hi
        rw [not_or] at hi
        obtain ⟨hij0, hiKt⟩ := hi
        rw [IH.2.2.2.2.2.2 i hiKt, dirichletSparseStep_nrows,
          dirichletSparseStep_b_other a b j0 g0 hwf i hij0]
        have hsum : (vs.map (fun jg =>
            (dirichletSparseStep a b (j0, g0)).1.densify i jg.1 * jg.2)).sum =
            (vs.map (fun jg => a.densify i jg.1 * jg.2)).sum := by
          apply sum_map_congr
          intro jg hjg
          rw [dirichletSparseStep_densify_other a b j0 g0 hwf i hij0 jg.1,
            if_neg (fun hh : jg.1 = j0 ∧ i < a.nrows =>
              hj0Kt (hh.1 ▸ List.mem_map_of_mem Prod.fst hjg))]
        rw [hsum]
        by_cases hin : i < a.nrows
        · rw [if_pos hin, if_pos hin, if_pos hin, List.map_cons,
            List.sum_cons]
          ring
        · rw [if_neg hin, if_neg hin, if_neg hin]

/-! ## The dense Dirichlet application, characterized -/

theorem dirichlet_dense_phase1 (values : List (ℕ × ℝ)) (a : DMat) (n : ℕ) :
    ∀ (b : DVector) (i : ℕ),
      (values.foldl (fun (bb : DVector) jg =>
        ⟨bb.len, fun i =>
          if i < n then bb.entry i - a.entry i jg.1 * jg.2
          else bb.entry i⟩) b).entry i =
      if i < n then
        b.entry i - (values.map (fun jg => a.entry i jg.1 * jg.2)).sum
      else b.entry i := by
  induction values with
  | nil =>
      intro b i
      by_cases hi : i < n
      · rw [if_pos hi]
        simp
      · rw [if_neg hi]
        rfl
  | cons jg vs ih =>
      intro b i
      rw [List.foldl_cons, ih]
      by_cases hi : i < n
      · rw [if_pos hi, if_pos hi]
        dsimp only
        rw [if_pos hi, List.map_cons, List.sum_cons]
        ring
      · rw [if_neg hi, if_neg hi]
        dsimp only
        rw [if_neg hi]

theorem dirichlet_dense_phase1_len (values : List (ℕ × ℝ)) (a : DMat)
    (n : ℕ) : ∀ b : DVector,
      (values.foldl (fun (bb : DVector) jg =>
        ⟨bb.len, fun i =>
          if i < n then bb.entry i - a.entry i jg.1 * jg.2
          else bb.entry i⟩) b).len = b.len := by
  induction values with
  | nil => intro b; rfl
  | cons jg vs ih => intro b; rw [List.foldl_cons, ih]

theorem ddp2_nrows (n : ℕ) (values : List (ℕ × ℝ)) :
    ∀ st : DMat × DVector,
      (values.foldl (fun (st : DMat × DVector) jg =>
        (⟨st.1.nrows, st.1.ncols, fun r c =>
          if r = jg.1 ∧ c = jg.1 then 1
          else if (r = jg.1 ∧ c < n) ∨ (c = jg.1 ∧ r < n) then 0
          else st.1.entry r c⟩, st.2.set jg.1 jg.2)) st).1.nrows =
      st.1.nrows := by
  induction values with
  | nil => intro st; rfl
  | cons jg vs ih => intro st; rw [List.foldl_cons, ih]

theorem ddp2_ncols (n : ℕ) (values : List (ℕ × ℝ)) :
    ∀ st : DMat × DVector,
      (values.foldl (fun (st : DMat × DVector) jg =>
        (⟨st.1.nrows, st.1.ncols, fun r c =>
          if r = jg.1 ∧ c = jg.1 then 1
          else if (r = jg.1 ∧ c < n) ∨ (c = jg.1 ∧ r < n) then 0
          else st.1.entry r c⟩, st.2.set jg.1 jg.2)) st).1.ncols =
      st.1.ncols := by
  induction values with
  | nil => intro st; rfl
  | cons jg vs ih => intro st; rw [List.foldl_cons, ih]

theorem ddp2_len (n : ℕ) (values : List (ℕ × ℝ)) :
    ∀ st : DMat × DVector,
      (values.foldl (fun (st : DMat × DVector) jg =>
        (⟨st.1.nrows, st.1.ncols, fun r c =>
          if r = jg.1 ∧ c = jg.1 then 1
          else if (r = jg.1 ∧ c < n) ∨ (c = jg.1 ∧ r < n) then 0
          else st.1.entry r c⟩, st.2.set jg.1 jg.2)) st).2.len =
      st.2.len := by
  induction values with
  | nil => intro st; rfl
  | cons jg vs ih =>
      intro st
      rw [List.foldl_cons, ih]
      rfl

theorem ddp2_untouched (n : ℕ) (values : List (ℕ × ℝ)) (r c : ℕ) :
    ∀ st : DMat × DVector, r ∉ values.map Prod.fst →
      c ∉ values.map Prod.fst →
      (values.foldl (fun (st : DMat × DVector) jg =>
        (⟨st.1.nrows, st.1.ncols, fun r c =>
          if r = jg.1 ∧ c = jg.1 then 1
          else if (r = jg.1 ∧ c < n) ∨ (c = jg.1 ∧ r < n) then 0
          else st.1.entry r c⟩, st.2.set jg.1 jg.2)) st).1.entry r c =
      st.1.entry r c := by
  induction values with
  | nil => intro st _ _; rfl
  | cons jg0 vs ih =>
      intro st hr hc
      simp only [List.map_cons, List.mem_cons, not_or] at hr hc
      rw [List.foldl_cons, ih _ hr.2 hc.2]
      dsimp only
      rw [if_neg (fun hh => hr.1 hh.1),
        if_neg (fun hh => hh.elim (fun h1 => hr.1 h1.1) (fun h1 => hc.1 h1.1))]

theorem ddp2_zero (n : ℕ) (values : List (ℕ × ℝ)) (r c : ℕ) (hrc : r ≠ c) :
    ∀ st : DMat × DVector, st.1.entry r c = 0 →
      (values.foldl (fun (st : DMat × DVector) jg =>
        (⟨st.1.nrows, st.1.ncols, fun r c =>
          if r = jg.1 ∧ c = jg.1 then 1
          else if (r = jg.1 ∧ c < n) ∨ (c = jg.1 ∧ r < n) then 0
          else st.1.entry r c⟩, st.2.set jg.1 jg.2)) st).1.entry r c = 0 := by
  induction values with
  | nil => intro st hz; exact hz
  | cons jg0 vs ih =>
      intro st hz
      rw [List.foldl_cons]
      apply ih
      dsimp only
      rw [if_neg (fun hh => hrc (hh.1.trans hh.2.symm))]
      by_cases h2 : (r = jg0.1 ∧ c < n) ∨ (c = jg0.1 ∧ r < n)
      · rw [if_pos h2]
      · rw [if_neg h2]
        exact hz

theorem ddp2_untouched_highcol (n : ℕ) (values : List (ℕ × ℝ)) (r c : ℕ)
    (hcn : ¬c < n) :
    ∀ st : DMat × DVector, c ∉ values.map Prod.fst →
      (values.foldl (fun (st : DMat × DVector) jg =>
        (⟨st.1.nrows, st.1.ncols, fun r c =>
          if r = jg.1 ∧ c = jg.1 then 1
          else if (r = jg.1 ∧ c < n) ∨ (c = jg.1 ∧ r < n) then 0
          else st.1.entry r c⟩, st.2.set jg.1 jg.2)) st).1.entry r c =
      st.1.entry r c := by
  induction values with
  | nil => intro st _; rfl
  | cons jg0 vs ih =>
      intro st hc
      simp only [List.map_cons, List.mem_cons, not_or] at hc
      rw [List.foldl_cons, ih _ hc.2]
      dsimp only
      rw [if_neg (fun hh => hc.1 hh.2),
        if_neg (fun hh => hh.elim (fun h1 => hcn h1.2) (fun h1 => hc.1 h1.1))]

theorem ddp2_untouched_highrow (n : ℕ) (values : List (ℕ × ℝ)) (r c : ℕ)
    (hrn : ¬r < n) :
    ∀ st : DMat × DVector, r ∉ values.map Prod.fst →
      (values.foldl (fun (st : DMat × DVector) jg =>
        (⟨st.1.nrows, st.1.ncols, fun r c =>
          if r = jg.1 ∧ c = jg.1 then 1
          else if (r = jg.1 ∧ c < n) ∨ (c = jg.1 ∧ r < n) then 0
          else st.1.entry r c⟩, st.2.set jg.1 jg.2)) st).1.entry r c =
      st.1.entry r c := by
  induction values with
  | nil => intro st _; rfl
  | cons jg0 vs ih =>
      intro st hr
      simp only [List.map_cons, List.mem_cons, not_or] at hr
      rw [List.foldl_cons, ih _ hr.2]
      dsimp only
      rw [if_neg (fun hh => hr.1 hh.1),
        if_neg (fun hh => hh.elim (fun h1 => hr.1 h1.1) (fun h1 => hrn h1.2))]

theorem ddp2_diag (n : ℕ) (values : List (ℕ × ℝ)) (j : ℕ) :
    ∀ st : DMat × DVector, (values.map Prod.fst).Nodup →
      j ∈ values.map Prod.fst →
      (values.foldl (fun (st : DMat × DVector) jg =>
        (⟨st.1.nrows, st.1.ncols, fun r c =>
          if r = jg.1 ∧ c = jg.1 then 1
          else if (r = jg.1 ∧ c < n) ∨ (c = jg.1 ∧ r < n) then 0
          else st.1.entry r c⟩, st.2.set jg.1 jg.2)) st).1.entry j j = 1 := by
  induction values with
  | nil => intro st _ hj; cases hj
  | cons jg0 vs ih =>
      intro st hnd hj
      simp only [List.map_cons, List.mem_cons] at hj
      simp only [List.map_cons, List.nodup_cons] at hnd
      rw [List.foldl_cons]
      rcases hj with hj | hj
      · rw [ddp2_untouched n vs j j _ (hj ▸ hnd.1) (hj ▸ hnd.1)]
        dsimp only
        rw [if_pos ⟨hj, hj⟩]
      · exact ih _ hnd.2 hj

theorem ddp2_rowcol_zero (n : ℕ) (values : List (ℕ × ℝ)) (j k : ℕ)
    (hk : k ≠ j) (hkn : k < n) :
    ∀ st : DMat × DVector, j ∈ values.map Prod.fst →
      ((values.foldl (fun (st : DMat × DVector) jg =>
        (⟨st.1.nrows, st.1.ncols, fun r c =>
          if r = jg.1 ∧ c = jg.1 then 1
          else if (r = jg.1 ∧ c < n) ∨ (c = jg.1 ∧ r < n) then 0
          else st.1.entry r c⟩, st.2.set jg.1 jg.2)) st).1.entry j k = 0) ∧
      ((values.foldl (fun (st : DMat × DVector) jg =>
        (⟨st.1.nrows, st.1.ncols, fun r c =>
          if r = jg.1 ∧ c = jg.1 then 1
          else if (r = jg.1 ∧ c < n) ∨ (c = jg.1 ∧ r < n) then 0
          else st.1.entry r c⟩, st.2.set jg.1 jg.2)) st).1.entry k j = 0) := by
  induction values with
  | nil => intro st hj; cases hj
  | cons jg0 vs ih =>
      intro st hj
      simp only [List.map_cons, List.mem_cons] at hj
      rw [List.foldl_cons]
      rcases hj with hj | hj
      · constructor
        · apply ddp2_zero n vs j k (fun hh => hk hh.symm)
          dsimp only
          rw [if_neg (fun hh => hk (hh.2.trans hj.symm)),
            if_pos (Or.inl ⟨hj, hkn⟩)]
        · apply ddp2_zero n vs k j hk
          dsimp only
          rw [if_neg (fun hh => hk (hh.1.trans hj.symm)),
            if_pos (Or.inr ⟨hj, hkn⟩)]
      · exact ih _ hj

theorem ddp2_b_untouched (n : ℕ) (values : List (ℕ × ℝ)) (i : ℕ) :
    ∀ st : DMat × DVector, i ∉ values.map Prod.fst →
      (values.foldl (fun (st : DMat × DVector) jg =>
        (⟨st.1.nrows, st.1.ncols, fun r c =>
          if r = jg.1 ∧ c = jg.1 then 1
          else if (r = jg.1 ∧ c < n) ∨ (c = jg.1 ∧ r < n) then 0
          else st.1.entry r c⟩, st.2.set jg.1 jg.2)) st).2.entry i =
      st.2.entry i := by
  induction values with
  | nil => intro st _; rfl
  | cons jg0 vs ih =>
      intro st hi
      simp only [List.map_cons, List.mem_cons, not_or] at hi
      rw [List.foldl_cons, ih _ hi.2]
      dsimp only [DVector.set]
      rw [if_neg hi.1]

theorem ddp2_b_pinned (n : ℕ) (values : List (ℕ × ℝ)) :
    ∀ st : DMat × DVector, (values.map Prod.fst).Nodup →
      ∀ jg ∈ values,
      (values.foldl (fun (st : DMat × DVector) jg =>
        (⟨st.1.nrows, st.1.ncols, fun r c =>
          if r = jg.1 ∧ c = jg.1 then 1
          else if (r = jg.1 ∧ c < n) ∨ (c = jg.1 ∧ r < n) then 0
          else st.1.entry r c⟩, st.2.set jg.1 jg.2)) st).2.entry jg.1 =
      jg.2 := by
  induction values with
  | nil => intro st _ jg hjg; cases hjg
  | cons jg0 vs ih =>
      intro st hnd jg hjg
      simp only [List.map_cons, List.nodup_cons] at hnd
      rw [List.foldl_cons]
      rcases List.mem_cons.1 hjg with heq | hjg'
      · obtain rfl := heq
        rw [ddp2_b_untouched n vs jg.1 _ hnd.1]
        dsimp only [DVector.set]
        rw [if_pos rfl]
      · exact ih _ hnd.2 jg hjg'

/-- Full characterization of `apply_dirichlet_dense`: dimensions preserved;
every boundary diagonal is 1 and every boundary row/column is zero off the
diagonal; non-boundary entries are untouched; `b` is pinned at boundary
nodes and receives the accumulated column contributions (computed from the
original matrix) elsewhere. -/
theorem apply_dirichlet_dense_spec (a : DMat) (b : DVector) (bd : List ℕ)
    (mesh : Mesh2d) (g : ℝ → ℝ → ℝ) (hnd : bd.Nodup)
    (hlt : ∀ j ∈ bd, j < a.nrows) :
    ((apply_dirichlet_dense a b bd mesh g).1.nrows = a.nrows) ∧
    ((apply_dirichlet_dense a b bd mesh g).1.ncols = a.ncols) ∧
    ((apply_dirichlet_dense a b bd mesh g).2.len = b.len) ∧
    (∀ j ∈ bd, (apply_dirichlet_dense a b bd mesh g).1.entry j j = 1) ∧
    (∀ j ∈ bd, ∀ k, k ≠ j → k < a.nrows →
      (apply_dirichlet_dense a b bd mesh g).1.entry j k = 0 ∧
      (apply_dirichlet_dense a b bd mesh g).1.entry k j = 0) ∧
    (∀ r c, r ∉ bd → c ∉ bd →
      (apply_dirichlet_dense a b bd mesh g).1.entry r c = a.entry r c) ∧
    (∀ r c, c ∉ bd → ¬c < a.nrows →
      (apply_dirichlet_dense a b bd mesh g).1.entry r c = a.entry r c) ∧
    (∀ r c, r ∉ bd → ¬r < a.nrows →
      (apply_dirichlet_dense a b bd mesh g).1.entry r c = a.entry r c) ∧
    (∀ j ∈ bd,
      (apply_dirichlet_dense a b bd mesh g).2.entry j = gAt mesh g j) ∧
    (∀ i, i ∉ bd → (apply_dirichlet_dense a b bd mesh g).2.entry i =
      if i < a.nrows then
        b.entry i - (bd.map (fun j => a.entry i j * gAt mesh g j)).sum
      else b.entry i) := by
  have hkeys : ((bd.map (fun i => (i, gAt mesh g i))).map Prod.fst) = bd :=
    map_fst_map_pairs bd (gAt mesh g)
  simp only [apply_dirichlet_dense]
  refine ⟨?_, ?_, ?_, ?_, ?_, ?_, ?_, ?_, ?_, ?_⟩
  · rw [ddp2_nrows]
  · rw [ddp2_ncols]
  · rw [ddp2_len]
    dsimp only
    rw [dirichlet_dense_phase1_len]
  · intro j hj
    exact ddp2_diag a.nrows _ j _ (by rw [hkeys]; exact hnd)
      (by rw [hkeys]; exact hj)
  · intro j hj k hk hkn
    exact ddp2_rowcol_zero a.nrows _ j k hk hkn _ (by rw [hkeys]; exact hj)
  · intro r c hr hc
    rw [ddp2_untouched a.nrows _ r c _ (by rw [hkeys]; exact hr)
      (by rw [hkeys]; exact hc)]
  · intro r c hc hcn
    rw [ddp2_untouched_highcol a.nrows _ r c hcn _ (by rw [hkeys]; exact hc)]
  · intro r c hr hrn
    rw [ddp2_untouched_highrow a.nrows _ r c hrn _ (by rw [hkeys]; exact hr)]
  · intro j hj
    exact ddp2_b_pinned a.nrows _ _ (by rw [hkeys]; exact hnd)
      (j, gAt mesh g j) (List.mem_map_of_mem _ hj)
  · intro i hi
    rw [ddp2_b_untouched a.nrows _ i _ (by rw [hkeys]; exact hi)]
    dsimp only
    rw [dirichlet_dense_phase1]
    have hmap : (bd.map (fun i0 => (i0, gAt mesh g i0))).map
        (fun jg => a.entry i jg.1 * jg.2) =
        bd.map (fun j => a.entry i j * gAt mesh g j) := by
      rw [List.map_map]
      rfl
    rw [hmap]

/-- Full characterization of `apply_dirichlet_sparse`, in terms of the
represented (densified) values: dimensions and sparsity pattern preserved;
boundary rows/columns zeroed; the boundary diagonal becomes 1 exactly when
it is structurally stored; `b` pinned at boundary nodes and accumulated
elsewhere. -/
theorem apply_dirichlet_sparse_spec (a : CsrMatrix) (b : DVector)
    (bd : List ℕ) (mesh : Mesh2d) (g : ℝ → ℝ → ℝ) (hwf : a.Wf)
    (hnd : bd.Nodup) (hlt : ∀ j ∈ bd, j < a.nrows) :
    ((apply_dirichlet_sparse a b bd mesh g).1.nrows = a.nrows) ∧
    ((apply_dirichlet_sparse a b bd mesh g).1.ncols = a.ncols) ∧
    ((apply_dirichlet_sparse a b bd mesh g).2.len = b.len) ∧
    (∀ r, (((apply_dirichlet_sparse a b bd mesh g).1.rows r).map Prod.fst) =
      (a.rows r).map Prod.fst) ∧
    (∀ r c, (apply_dirichlet_sparse a b bd mesh g).1.densify r c =
      if r ∈ bd then (if c = r ∧ a.storedAt r r then 1 else 0)
      else if c ∈ bd ∧ r < a.nrows then 0
      else a.densify r c) ∧
    (∀ j ∈ bd,
      (apply_dirichlet_sparse a b bd mesh g).2.entry j = gAt mesh g j) ∧
    (∀ i, i ∉ bd → (apply_dirichlet_sparse a b bd mesh g).2.entry i =
      if i < a.nrows then
        b.entry i - (bd.map (fun j => a.densify i j * gAt mesh g j)).sum
      else b.entry i) := by
  have hkeys : ((bd.map (fun j => (j, gAt mesh g j))).map Prod.fst) = bd :=
    map_fst_map_pairs bd (gAt mesh g)
  have hspec := dirichlet_sparse_fold_spec (bd.map (fun j => (j, gAt mesh g j)))
    a b hwf (by rw [hkeys]; exact hnd)
    (by
      intro jg hjg
      rw [List.mem_map] at hjg
      obtain ⟨j, hj, rfl⟩ := hjg
      exact hlt j hj)
  simp only [apply_dirichlet_sparse]
  refine ⟨hspec.1, hspec.2.1, hspec.2.2.1, hspec.2.2.2.1, ?_, ?_, ?_⟩
  · intro r c
    rw [hspec.2.2.2.2.1 r c]
    by_cases h1 : r ∈ bd
    · rw [if_pos (by rw [hkeys]; exact h1), if_pos h1]
    · rw [if_neg (by rw [hkeys]; exact h1), if_neg h1]
      by_cases h2 : c ∈ bd ∧ r < a.nrows
      · rw [if_pos ⟨by rw [hkeys]; exact h2.1, h2.2⟩, if_pos h2]
      · rw [if_neg (fun hh => h2 ⟨hkeys ▸ hh.1, hh.2⟩), if_neg h2]
  · intro j hj
    exact hspec.2.2.2.2.2.1 (j, gAt mesh g j) (List.mem_map_of_mem _ hj)
  · intro i hi
    rw [hspec.2.2.2.2.2.2 i (by rw [hkeys]; exact hi)]
    have hmap : (bd.map (fun j => (j, gAt mesh g j))).map
        (fun jg => a.densify i jg.1 * jg.2) =
        bd.map (fun j => a.densify i j * gAt mesh g j) := by
      rw [List.map_map]
      rfl
    rw [hmap]

/-! ## Further supporting lemmas for the claims -/

theorem densify_high {a : CsrMatrix} (hwf : a.Wf) {r : ℕ} (hr : a.nrows ≤ r)
    (c : ℕ) : a.densify r c = 0 := by
  rw [CsrMatrix.densify, hwf.2 r hr]
  rfl

theorem assemble_dense_dims (mesh : Mesh2d) (f : ℝ → ℝ → ℝ) (Ad : DMat)
    (Bd : DVector) (h : assemble_system_dense mesh f = some (Ad, Bd)) :
    Ad.nrows = mesh.vertices.length ∧ Ad.ncols = mesh.vertices.length ∧
    Bd.len = mesh.vertices.length := by
  have h' : mesh.elements.foldlM
      (elementStepDense mesh (refElementFor mesh.element_type)
        (quadRuleDefault mesh.element_type) f)
      (DMat.zeros mesh.vertices.length mesh.vertices.length,
        DVector.zeros mesh.vertices.length) = some (Ad, Bd) := by
    simpa only [assemble_system_dense, ruleFor_eq] using h
  have hinv := foldlM_option_invariant
    (fun st : DMat × DVector => st.1.nrows = mesh.vertices.length ∧
      st.1.ncols = mesh.vertices.length ∧ st.2.len = mesh.vertices.length)
    mesh.elements _
    (by
      intro st e st' _ hstep hP
      cases hke : elementKeFe (refElementFor mesh.element_type)
          (quadRuleDefault mesh.element_type) (elementNodes mesh e) f with
      | none =>
          rw [elementStepDense_none _ _ _ _ _ _ hke] at hstep
          cases hstep
      | some kefe =>
          rw [elementStepDense_some _ _ _ _ _ _ _ hke] at hstep
          obtain rfl := (Option.some.inj hstep).symm
          refine ⟨?_, ?_, ?_⟩
          · rw [foldl_nested_addAt_nrows]
            exact hP.1
          · rw [foldl_nested_addAt_ncols]
            exact hP.2.1
          · rw [foldl_bscatter_len]
            exact hP.2.2)
    _ _ h' ⟨rfl, rfl, rfl⟩
  exact hinv

theorem assemble_sparse_shape (mesh : Mesh2d) (f : ℝ → ℝ → ℝ)
    (As : CsrMatrix) (Bs : DVector)
    (h : assemble_system_sparse mesh f = some (As, Bs)) :
    As.Wf ∧ As.nrows = mesh.vertices.length ∧
    As.ncols = mesh.vertices.length ∧ Bs.len = mesh.vertices.length := by
  have h' : (match mesh.elements.foldlM
      (elementStepSparse mesh (refElementFor mesh.element_type)
        (quadRuleDefault mesh.element_type) f)
      (([] : List CooTriplet), DVector.zeros mesh.vertices.length) with
    | none => none
    | some st => some (CsrMatrix.fromCoo mesh.vertices.length
        mesh.vertices.length st.1, st.2)) = some (As, Bs) := by
    simpa only [assemble_system_sparse, ruleFor_eq] using h
  cases hf : mesh.elements.foldlM
      (elementStepSparse mesh (refElementFor mesh.element_type)
        (quadRuleDefault mesh.element_type) f)
      (([] : List CooTriplet), DVector.zeros mesh.vertices.length) with
  | none =>
      rw [hf] at h'
      cases h'
  | some st =>
      rw [hf] at h'
      have hpair := Option.some.inj h'
      have hAs : CsrMatrix.fromCoo mesh.vertices.length
          mesh.vertices.length st.1 = As := congrArg Prod.fst hpair
      have hBs : st.2 = Bs := congrArg Prod.snd hpair
      have hlen := foldlM_option_invariant
        (fun st : List CooTriplet × DVector =>
          st.2.len = mesh.vertices.length)
        mesh.elements _
        (by
          intro st e st' _ hstep hP
          cases hke : elementKeFe (refElementFor mesh.element_type)
              (quadRuleDefault mesh.element_type) (elementNodes mesh e) f with
          | none =>
              rw [elementStepSparse_none _ _ _ _ _ _ hke] at hstep
              cases hstep
          | some kefe =>
              rw [elementStepSparse_some _ _ _ _ _ _ _ hke] at hstep
              obtain rfl := (Option.some.inj hstep).symm
              rw [foldl_bscatter_len]
              exact hP)
        _ _ hf rfl
      refine ⟨?_, ?_, ?_, ?_⟩
      · rw [← hAs]
        exact fromCoo_wf _ _ _
      · rw [← hAs]
        rfl
      · rw [← hAs]
        rfl
      · rw [← hBs]
        exact hlen

theorem sparse_fold_stores_diag (mesh : Mesh2d) (ref : ReferenceElement)
    (rule : QuadRule) (f : ℝ → ℝ → ℝ) (j : ℕ) :
    ∀ (elements : List Element) (st st' : List CooTriplet × DVector),
      elements.foldlM (elementStepSparse mesh ref rule f) st = some st' →
      ((∃ t ∈ st.1, t.1 = j ∧ t.2.1 = j) ∨ ∃ e ∈ elements, j ∈ e.indices) →
      ∃ t ∈ st'.1, t.1 = j ∧ t.2.1 = j := by
  intro elements
  induction elements with
  | nil =>
      intro st st' hfold hyp
      cases hfold
      rcases hyp with h | ⟨e, he, _⟩
      · exact h
      · cases he
  | cons e es ih =>
      intro st st' hfold hyp
      rw [List.foldlM_cons] at hfold
      cases hke : elementKeFe ref rule (elementNodes mesh e) f with
      | none =>
          rw [elementStepSparse_none _ _ _ _ _ _ hke] at hfold
          cases hfold
      | some kefe =>
          rw [elementStepSparse_some _ _ _ _ _ _ _ hke] at hfold
          have hbind : ((some (st.1 ++ elemTriplets e.indices.enum kefe.1,
              e.indices.enum.foldl (fun bb ig => bb.addAt ig.2 (kefe.2 ig.1))
                st.2) : Option (List CooTriplet × DVector)) >>=
              fun s' => es.foldlM (elementStepSparse mesh ref rule f) s') =
              es.foldlM (elementStepSparse mesh ref rule f)
                (st.1 ++ elemTriplets e.indices.enum kefe.1,
                 e.indices.enum.foldl
                   (fun bb ig => bb.addAt ig.2 (kefe.2 ig.1)) st.2) := rfl
          rw [hbind] at hfold
          apply ih _ _ hfold
          rcases hyp with ⟨t, ht, hP⟩ | ⟨e', he', hj⟩
          · exact Or.inl ⟨t, List.mem_append_left _ ht, hP⟩
          · rcases List.mem_cons.1 he' with rfl | he''
            · left
              obtain ⟨li, hli⟩ := mem_enum_of_mem _ _ hj
              refine ⟨(j, j, kefe.1 li li), List.mem_append_right _ ?_,
                rfl, rfl⟩
              unfold elemTriplets
              rw [List.mem_flatten]
              refine ⟨(e'.indices.enum.map (fun jg =>
                ((j, jg.2, kefe.1 li jg.1) : CooTriplet))), ?_, ?_⟩
              · have := List.mem_map_of_mem (fun ig : ℕ × ℕ =>
                  e'.indices.enum.map (fun jg =>
                    ((ig.2, jg.2, kefe.1 ig.1 jg.1) : CooTriplet))) hli
                exact this
              · exact List.mem_map_of_mem _ hli
            · exact Or.inr ⟨e', he'', hj⟩

theorem assemble_sparse_storedAt_diag (mesh : Mesh2d) (f : ℝ → ℝ → ℝ)
    (As : CsrMatrix) (Bs : DVector)
    (h : assemble_system_sparse mesh f = some (As, Bs)) (j : ℕ)
    (hj : j < mesh.vertices.length) (he : ∃ e ∈ mesh.elements, j ∈ e.indices) :
    As.storedAt j j := by
  have h' : (match mesh.elements.foldlM
      (elementStepSparse mesh (refElementFor mesh.element_type)
        (quadRuleDefault mesh.element_type) f)
      (([] : List CooTriplet), DVector.zeros mesh.vertices.length) with
    | none => none
    | some st => some (CsrMatrix.fromCoo mesh.vertices.length
        mesh.vertices.length st.1, st.2)) = some (As, Bs) := by
    simpa only [assemble_system_sparse, ruleFor_eq] using h
  cases hf : mesh.elements.foldlM
      (elementStepSparse mesh (refElementFor mesh.element_type)
        (quadRuleDefault mesh.element_type) f)
      (([] : List CooTriplet), DVector.zeros mesh.vertices.length) with
  | none =>
      rw [hf] at h'
      cases h'
  | some st =>
      rw [hf] at h'
      have hAs : CsrMatrix.fromCoo mesh.vertices.length
          mesh.vertices.length st.1 = As :=
        congrArg Prod.fst (Option.some.inj h')
      have hdiag := sparse_fold_stores_diag mesh
        (refElementFor mesh.element_type) (quadRuleDefault mesh.element_type)
        f j mesh.elements _ st hf
        (Or.inr he)
      rw [← hAs]
      exact (fromCoo_storedAt _ _ _ _ _).2 ⟨hj, hdiag⟩

theorem unitSquare_jacobian (e : Element) (he : e ∈ unitSquareMesh.elements)
    (p : Point2) :
    (refElementFor unitSquareMesh.element_type).jacobian
      (elementNodes unitSquareMesh e) p =
      (⟨1 / 2, 0, 0, 1 / 2⟩ : Matrix2) := by
  have he' : e = ⟨[0, 1, 2, 3]⟩ := by
    simpa [unitSquareMesh] using he
  subst he'
  show ReferenceElement.Quad4.jacobian
    (elementNodes unitSquareMesh ⟨[0, 1, 2, 3]⟩) p = _
  have hnodes : elementNodes unitSquareMesh ⟨[0, 1, 2, 3]⟩ =
      [⟨0, 0⟩, ⟨1, 0⟩, ⟨1, 1⟩, ⟨0, 1⟩] := rfl
  rw [hnodes]
  simp only [ReferenceElement.jacobian, ReferenceElement.shape_gradients,
    List.zip_cons_cons, List.zip_nil_left, List.foldl_cons, List.foldl_nil]
  rw [Matrix2.mk.injEq]
  refine ⟨?_, ?_, ?_, ?_⟩ <;> norm_num <;> ring

theorem unitSquare_allJacobiansInvertible :
    allJacobiansInvertible unitSquareMesh := by
  intro e he p _
  rw [unitSquare_jacobian e he p]
  norm_num [Matrix2.determinant]

theorem fromCoo_nil_densify (nr nc r c : ℕ) :
    (CsrMatrix.fromCoo nr nc []).densify r c = 0 := by
  unfold CsrMatrix.densify CsrMatrix.fromCoo
  dsimp only
  by_cases h : r < nr
  · rw [if_pos h]
    rfl
  · rw [if_neg h]
    rfl

/-- C6: `dense_solver` returns a solution exactly when the Cholesky
factorization succeeds (it propagates the factorization failure with `?`,
yielding no partial result), and `sparse_solver` invokes conjugate gradient
with the fixed iteration cap 1000 and absolute tolerance `1e-10`,
forwarding its verdict — `none` on non-convergence — to the caller
unchanged.  The external factorization/iteration routines are parameters of
the model: they live in nalgebra, outside this repository. -/
theorem solver_failure_semantics :
    ∀ (cholesky : DMat → Option (DVector → DVector))
      (cg : CsrMatrix → DVector → ℕ → ℝ → Option DVector)
      (a : DMat) (aS : CsrMatrix) (b bS : DVector),
      dense_solver cholesky a b = (cholesky a).map (fun chol => chol b) ∧
      ((dense_solver cholesky a b).isSome ↔ (cholesky a).isSome) ∧
      sparse_solver cg aS bS = cg aS bS 1000 (1 / 10 ^ 10) := by
  intro cholesky cg a aS b bS
  refine ⟨?_, ?_, rfl⟩
  · cases h : cholesky a <;> simp [dense_solver, h]
  · cases h : cholesky a <;> simp [dense_solver, h]

/-- C7: assembly (dense or sparse) completes and returns a system exactly
when every element's Jacobian is invertible at every quadrature point of
the selected rule; a degenerate Jacobian at any quadrature point of any
element makes the whole assembly abort (`none`, the model of the source
`unwrap` panic) with no recovery path. -/
theorem assembly_abort_iff_degenerate_jacobian :
    ∀ (mesh : Mesh2d) (f : ℝ → ℝ → ℝ),
      ((assemble_system_dense mesh f).isSome ↔ allJacobiansInvertible mesh) ∧
      ((assemble_system_sparse mesh f).isSome ↔ allJacobiansInvertible mesh) :=
  fun mesh f =>
    ⟨assemble_dense_isSome_iff mesh f, assemble_sparse_isSome_iff mesh f⟩

/-- C10: `apply_dirichlet_sparse` writes the boundary value into `b[j]`
unconditionally, but sets the diagonal to 1 only when `(j, j)` is
structurally stored in the CSR pattern; when no diagonal entry is stored
(a vertex in no element) the represented diagonal silently stays 0, and the
sparsity pattern itself is never changed. -/
theorem sparse_dirichlet_diagonal_stored (a : CsrMatrix) (b : DVector)
    (bdn : List ℕ) (mesh : Mesh2d) (g : ℝ → ℝ → ℝ) (hwf : a.Wf)
    (hnd : bdn.Nodup) (hlt : ∀ j ∈ bdn, j < a.nrows) :
    ∀ j ∈ bdn,
      ((apply_dirichlet_sparse a b bdn mesh g).2.entry j = gAt mesh g j) ∧
      (a.storedAt j j →
        (apply_dirichlet_sparse a b bdn mesh g).1.densify j j = 1) ∧
      (¬a.storedAt j j →
        (apply_dirichlet_sparse a b bdn mesh g).1.densify j j = 0) ∧
      ((apply_dirichlet_sparse a b bdn mesh g).1.storedAt j j ↔
        a.storedAt j j) := by
  intro j hj
  obtain spec := apply_dirichlet_sparse_spec a b bdn mesh g hwf hnd hlt
  refine ⟨spec.2.2.2.2.2.1 j hj, ?_, ?_, ?_⟩
  · intro hst
    rw [spec.2.2.2.2.1 j j, if_pos hj, if_pos ⟨rfl, hst⟩]
  · intro hst
    rw [spec.2.2.2.2.1 j j, if_pos hj, if_neg (fun hh => hst hh.2)]
  · unfold CsrMatrix.storedAt
    rw [spec.2.2.2.1 j]

/-- Witness for C10 at a concrete 1×1 CSR with an empty sparsity pattern
and boundary node 0. -/
theorem sparse_dirichlet_diagonal_stored_witness :
    ((apply_dirichlet_sparse (CsrMatrix.fromCoo 1 1 []) (DVector.zeros 1) [0]
        ⟨[⟨0, 0⟩], [], ElementType.P1⟩ (fun _ _ => 1)).2.entry 0 =
      gAt ⟨[⟨0, 0⟩], [], ElementType.P1⟩ (fun _ _ => 1) 0) ∧
    (¬(CsrMatrix.fromCoo 1 1 []).storedAt 0 0 →
      (apply_dirichlet_sparse (CsrMatrix.fromCoo 1 1 []) (DVector.zeros 1) [0]
        ⟨[⟨0, 0⟩], [], ElementType.P1⟩ (fun _ _ => 1)).1.densify 0 0 = 0) := by
  have h := sparse_dirichlet_diagonal_stored (CsrMatrix.fromCoo 1 1 [])
    (DVector.zeros 1) [0] ⟨[⟨0, 0⟩], [], ElementType.P1⟩ (fun _ _ => 1)
    (fromCoo_wf 1 1 []) (by decide) (by decide) 0 (by decide)
  exact ⟨h.1, h.2.2.1⟩

/-- C2 counterexample: a 1-vertex mesh with no elements assembles (sparse
backend) into a 1×1 CSR with an empty sparsity pattern; node 0 is a distinct
in-range boundary index, yet after `apply_dirichlet_sparse` the represented
diagonal entry A[0][0] is 0, not 1 — the claimed postcondition
`A[j][j] = 1` fails for the sparse variant. -/
theorem sparse_dirichlet_missing_diag_cex :
    assemble_system_sparse ⟨[⟨0, 0⟩], [], ElementType.P1⟩ (fun _ _ => 0) =
      some (CsrMatrix.fromCoo 1 1 [], DVector.zeros 1) ∧
    [0].Nodup ∧ (0 : ℕ) < 1 ∧
    (apply_dirichlet_sparse (CsrMatrix.fromCoo 1 1 []) (DVector.zeros 1) [0]
      ⟨[⟨0, 0⟩], [], ElementType.P1⟩ (fun _ _ => 1)).1.densify 0 0 = 0 ∧
    (0 : ℝ) ≠ 1 := by
  refine ⟨rfl, by decide, by decide, ?_, by norm_num⟩
  have spec := apply_dirichlet_sparse_spec (CsrMatrix.fromCoo 1 1 [])
    (DVector.zeros 1) [0] ⟨[⟨0, 0⟩], [], ElementType.P1⟩ (fun _ _ => 1)
    (fromCoo_wf 1 1 []) (by decide) (by decide)
  rw [spec.2.2.2.2.1 0 0, if_pos (by decide : (0 : ℕ) ∈ [0])]
  rw [if_neg]
  intro hh
  have hst := hh.2
  unfold CsrMatrix.storedAt CsrMatrix.fromCoo at hst
  simp at hst

/-- C2 (corrected): postconditions of Dirichlet application on an assembled
system.  Dense variant: for every boundary index j, row/column j are zeroed
with A[j][j] = 1 and b[j] = g(vertex j); every non-boundary b[i] becomes its
pre-call value minus Σⱼ (pre-call A[i][j])·gⱼ; non-boundary rows and columns
of A are unchanged.  Sparse variant: the same holds for the represented
(densified) matrix EXCEPT that A[j][j] = 1 is guaranteed only when the CSR
pattern structurally stores position (j, j) — which assembly does provide
whenever vertex j belongs to some element. -/
theorem apply_dirichlet_boundary_postconditions (mesh : Mesh2d)
    (f g : ℝ → ℝ → ℝ) (bdn : List ℕ) (hnd : bdn.Nodup)
    (hbd : ∀ j ∈ bdn, j < mesh.vertices.length) :
    (∀ Ad Bd, assemble_system_dense mesh f = some (Ad, Bd) →
      (∀ j ∈ bdn,
        (apply_dirichlet_dense Ad Bd bdn mesh g).1.entry j j = 1 ∧
        (∀ k, k < mesh.vertices.length → k ≠ j →
          (apply_dirichlet_dense Ad Bd bdn mesh g).1.entry j k = 0 ∧
          (apply_dirichlet_dense Ad Bd bdn mesh g).1.entry k j = 0) ∧
        (apply_dirichlet_dense Ad Bd bdn mesh g).2.entry j = gAt mesh g j) ∧
      (∀ i, i ∉ bdn → i < mesh.vertices.length →
        (apply_dirichlet_dense Ad Bd bdn mesh g).2.entry i =
          Bd.entry i - (bdn.map (fun j => Ad.entry i j * gAt mesh g j)).sum) ∧
      (∀ i k, i ∉ bdn → k ∉ bdn →
        (apply_dirichlet_dense Ad Bd bdn mesh g).1.entry i k =
          Ad.entry i k)) ∧
    (∀ As Bs, assemble_system_sparse mesh f = some (As, Bs) →
      (∀ j ∈ bdn,
        ((∃ e ∈ mesh.elements, j ∈ e.indices) → As.storedAt j j) ∧
        (As.storedAt j j →
          (apply_dirichlet_sparse As Bs bdn mesh g).1.densify j j = 1) ∧
        (∀ k, k ≠ j →
          (apply_dirichlet_sparse As Bs bdn mesh g).1.densify j k = 0 ∧
          (apply_dirichlet_sparse As Bs bdn mesh g).1.densify k j = 0) ∧
        (apply_dirichlet_sparse As Bs bdn mesh g).2.entry j =
          gAt mesh g j) ∧
      (∀ i, i ∉ bdn → i < mesh.vertices.length →
        (apply_dirichlet_sparse As Bs bdn mesh g).2.entry i =
          Bs.entry i -
            (bdn.map (fun j => As.densify i j * gAt mesh g j)).sum) ∧
      (∀ i k, i ∉ bdn → k ∉ bdn →
        (apply_dirichlet_sparse As Bs bdn mesh g).1.densify i k =
          As.densify i k)) := by
  constructor
  · intro Ad Bd h
    obtain ⟨hr, hc, hb⟩ := assemble_dense_dims mesh f Ad Bd h
    have hlt : ∀ j ∈ bdn, j < Ad.nrows := fun j hj => hr.symm ▸ hbd j hj
    obtain spec := apply_dirichlet_dense_spec Ad Bd bdn mesh g hnd hlt
    refine ⟨?_, ?_, ?_⟩
    · intro j hj
      refine ⟨spec.2.2.2.1 j hj, ?_, spec.2.2.2.2.2.2.2.2.1 j hj⟩
      intro k hk hkj
      exact spec.2.2.2.2.1 j hj k hkj (hr.symm ▸ hk)
    · intro i hi hi2
      rw [spec.2.2.2.2.2.2.2.2.2 i hi, if_pos (hr.symm ▸ hi2)]
    · intro i k hi hk
      exact spec.2.2.2.2.2.1 i k hi hk
  · intro As Bs h
    obtain ⟨hwfA, hrs, hcs, hbs⟩ := assemble_sparse_shape mesh f As Bs h
    have hlt : ∀ j ∈ bdn, j < As.nrows := fun j hj => hrs.symm ▸ hbd j hj
    obtain spec := apply_dirichlet_sparse_spec As Bs bdn mesh g hwfA hnd hlt
    refine ⟨?_, ?_, ?_⟩
    · intro j hj
      refine ⟨fun he => assemble_sparse_storedAt_diag mesh f As Bs h j
        (hbd j hj) he, ?_, ?_, spec.2.2.2.2.2.1 j hj⟩
      · intro hst
        rw [spec.2.2.2.2.1 j j, if_pos hj, if_pos ⟨rfl, hst⟩]
      · intro k hk
        constructor
        · rw [spec.2.2.2.2.1 j k, if_pos hj, if_neg (fun hh => hk hh.1)]
        · rw [spec.2.2.2.2.1 k j]
          by_cases hkb : k ∈ bdn
          · rw [if_pos hkb, if_neg (fun hh => hk hh.1.symm)]
          · rw [if_neg hkb]
            by_cases hkn : k < As.nrows
            · rw [if_pos ⟨hj, hkn⟩]
            · rw [if_neg (fun hh => hkn hh.2)]
              exact densify_high hwfA (Nat.le_of_not_lt hkn) j
    · intro i hi hi2
      rw [spec.2.2.2.2.2.2 i hi, if_pos (hrs.symm ▸ hi2)]
    · intro i k hi hk
      rw [spec.2.2.2.2.1 i k, if_neg hi, if_neg (fun hh => hk hh.1)]

/-- Witness for C2 on the concrete 1-vertex, element-free mesh. -/
theorem apply_dirichlet_boundary_postconditions_witness :
    (apply_dirichlet_dense (DMat.zeros 1 1) (DVector.zeros 1) [0]
      ⟨[⟨0, 0⟩], [], ElementType.P1⟩ (fun _ _ => 1)).1.entry 0 0 = 1 ∧
    (apply_dirichlet_sparse (CsrMatrix.fromCoo 1 1 []) (DVector.zeros 1) [0]
      ⟨[⟨0, 0⟩], [], ElementType.P1⟩ (fun _ _ => 1)).2.entry 0 =
      gAt ⟨[⟨0, 0⟩], [], ElementType.P1⟩ (fun _ _ => 1) 0 := by
  have h := apply_dirichlet_boundary_postconditions
    ⟨[⟨0, 0⟩], [], ElementType.P1⟩ (fun _ _ => 0) (fun _ _ => 1) [0]
    (by decide) (by decide)
  exact ⟨((h.1 (DMat.zeros 1 1) (DVector.zeros 1) rfl).1 0 (by decide)).1,
    ((h.2 (CsrMatrix.fromCoo 1 1 []) (DVector.zeros 1) rfl).1 0
      (by decide)).2.2.2⟩

/-- C4 counterexample: a dense matrix and a sparse matrix representing the
same (zero) 1×1 system — but with position (0, 0) absent from the CSR
pattern — are eliminated differently: the dense variant writes the
diagonal 1 unconditionally, the sparse variant only into stored positions,
so the final matrices differ at (0, 0). -/
theorem dirichlet_backends_divergence_cex :
    (∀ r c, (DMat.zeros 1 1).entry r c = (CsrMatrix.fromCoo 1 1 []).densify r c) ∧
    (apply_dirichlet_dense (DMat.zeros 1 1) (DVector.zeros 1) [0]
      ⟨[⟨0, 0⟩], [], ElementType.P1⟩ (fun _ _ => 2)).1.entry 0 0 = 1 ∧
    (apply_dirichlet_sparse (CsrMatrix.fromCoo 1 1 []) (DVector.zeros 1) [0]
      ⟨[⟨0, 0⟩], [], ElementType.P1⟩ (fun _ _ => 2)).1.densify 0 0 = 0 ∧
    (1 : ℝ) ≠ 0 := by
  refine ⟨fun r c => (fromCoo_nil_densify 1 1 r c).symm, ?_, ?_, one_ne_zero⟩
  · have spec := apply_dirichlet_dense_spec (DMat.zeros 1 1) (DVector.zeros 1)
      [0] ⟨[⟨0, 0⟩], [], ElementType.P1⟩ (fun _ _ => 2) (by decide) (by decide)
    exact spec.2.2.2.1 0 (by decide)
  · have spec := apply_dirichlet_sparse_spec (CsrMatrix.fromCoo 1 1 [])
      (DVector.zeros 1) [0] ⟨[⟨0, 0⟩], [], ElementType.P1⟩ (fun _ _ => 2)
      (fromCoo_wf 1 1 []) (by decide) (by decide)
    rw [spec.2.2.2.2.1 0 0, if_pos (by decide : (0 : ℕ) ∈ [0])]
    rw [if_neg]
    intro hh
    have hst := hh.2
    unfold CsrMatrix.storedAt CsrMatrix.fromCoo at hst
    simp at hst

/-- C4 (corrected): if the dense matrix and the (well-formed) sparse matrix
represent the same in-range entries and, additionally, every boundary index
has a structurally stored diagonal position, then the all-rhs-first dense
elimination and the per-node interleaved sparse elimination produce the same
final matrix (on the represented range) and the same final right-hand side.
Without the stored-diagonal precondition the two diverge (see the
counterexample). -/
theorem dirichlet_dense_sparse_agree (a : DMat) (aS : CsrMatrix)
    (b : DVector) (bdn : List ℕ) (mesh : Mesh2d) (g : ℝ → ℝ → ℝ)
    (hwf : aS.Wf) (hdim : a.nrows = aS.nrows) (hnd : bdn.Nodup)
    (hlt : ∀ j ∈ bdn, j < aS.nrows)
    (hagree : ∀ r c, r < aS.nrows → c < aS.nrows →
      a.entry r c = aS.densify r c)
    (hstored : ∀ j ∈ bdn, aS.storedAt j j) :
    (∀ r c, r < aS.nrows → c < aS.nrows →
      (apply_dirichlet_dense a b bdn mesh g).1.entry r c =
        (apply_dirichlet_sparse aS b bdn mesh g).1.densify r c) ∧
    (∀ i, (apply_dirichlet_dense a b bdn mesh g).2.entry i =
      (apply_dirichlet_sparse aS b bdn mesh g).2.entry i) := by
  have hlt' : ∀ j ∈ bdn, j < a.nrows := fun j hj => hdim.symm ▸ hlt j hj
  obtain sd := apply_dirichlet_dense_spec a b bdn mesh g hnd hlt'
  obtain ss := apply_dirichlet_sparse_spec aS b bdn mesh g hwf hnd hlt
  constructor
  · intro r c hr hc
    rw [ss.2.2.2.2.1 r c]
    by_cases hrbd : r ∈ bdn
    · rw [if_pos hrbd]
      by_cases hcr : c = r
      · subst hcr
        rw [if_pos ⟨rfl, hstored c hrbd⟩]
        exact sd.2.2.2.1 c hrbd
      · rw [if_neg (fun hh => hcr hh.1)]
        exact (sd.2.2.2.2.1 r hrbd c hcr (hdim.symm ▸ hc)).1
    · rw [if_neg hrbd]
      by_cases hcbd : c ∈ bdn
      · rw [if_pos ⟨hcbd, hr⟩]
        exact (sd.2.2.2.2.1 c hcbd r
          (fun hh => hrbd (by rw [hh]; exact hcbd)) (hdim.symm ▸ hr)).2
      · rw [if_neg (fun hh => hcbd hh.1)]
        rw [sd.2.2.2.2.2.1 r c hrbd hcbd]
        exact hagree r c hr hc
  · intro i
    by_cases hibd : i ∈ bdn
    · rw [sd.2.2.2.2.2.2.2.2.1 i hibd, ss.2.2.2.2.2.1 i hibd]
    · rw [sd.2.2.2.2.2.2.2.2.2 i hibd, ss.2.2.2.2.2.2 i hibd]
      by_cases hin : i < aS.nrows
      · rw [if_pos (hdim.symm ▸ hin), if_pos hin]
        congr 1
        apply sum_map_congr
        intro j hj
        rw [hagree i j hin (hlt j hj)]
      · rw [if_neg (fun hh => hin (hdim ▸ hh)), if_neg hin]

/-- Witness for C4 on a concrete 1×1 pair: dense entry 2 at (0, 0) and the
CSR built from the single COO triplet (0, 0, 2). -/
theorem dirichlet_dense_sparse_agree_witness :
    (apply_dirichlet_dense ⟨1, 1, fun r c => if r = 0 ∧ c = 0 then 2 else 0⟩
      (DVector.zeros 1) [0] ⟨[⟨0, 0⟩], [], ElementType.P1⟩
      (fun _ _ => 3)).1.entry 0 0 =
    (apply_dirichlet_sparse (CsrMatrix.fromCoo 1 1 [(0, 0, 2)])
      (DVector.zeros 1) [0] ⟨[⟨0, 0⟩], [], ElementType.P1⟩
      (fun _ _ => 3)).1.densify 0 0 := by
  have hagree : ∀ r c, r < (CsrMatrix.fromCoo 1 1 [(0, 0, 2)]).nrows →
      c < (CsrMatrix.fromCoo 1 1 [(0, 0, 2)]).nrows →
      DMat.entry ⟨1, 1, fun r c => if r = 0 ∧ c = 0 then 2 else 0⟩ r c =
        (CsrMatrix.fromCoo 1 1 [(0, 0, 2)]).densify r c := by
    intro r c hr hc
    have hr0 : r = 0 := Nat.lt_one_iff.mp hr
    have hc0 : c = 0 := Nat.lt_one_iff.mp hc
    subst hr0
    subst hc0
    rw [fromCoo_densify 1 1 [(0, 0, 2)] (by decide) 0 0, cooSum_cons,
      cooSum_nil, if_pos ⟨rfl, rfl⟩]
    show (if (0 : ℕ) = 0 ∧ (0 : ℕ) = 0 then (2 : ℝ) else 0) = 2 + 0
    rw [if_pos ⟨rfl, rfl⟩, add_zero]
  exact (dirichlet_dense_sparse_agree
    ⟨1, 1, fun r c => if r = 0 ∧ c = 0 then 2 else 0⟩
    (CsrMatrix.fromCoo 1 1 [(0, 0, 2)]) (DVector.zeros 1) [0]
    ⟨[⟨0, 0⟩], [], ElementType.P1⟩ (fun _ _ => 3)
    (fromCoo_wf 1 1 [(0, 0, 2)]) rfl (by decide) (by decide) hagree
    (by decide)).1 0 0 (by decide) (by decide)

/-- C5: symmetry of the stiffness matrix at every pipeline stage: the
dense-assembled matrix is symmetric; the densified sparse-assembled matrix
is symmetric; and both Dirichlet-elimination variants map a symmetric input
matrix to a symmetric output matrix. -/
theorem stiffness_symmetry_pipeline :
    (∀ (mesh : Mesh2d) (f : ℝ → ℝ → ℝ) (Ad : DMat) (bd : DVector),
      assemble_system_dense mesh f = some (Ad, bd) →
      ∀ r c, Ad.entry r c = Ad.entry c r) ∧
    (∀ (mesh : Mesh2d) (f : ℝ → ℝ → ℝ) (As : CsrMatrix) (bs : DVector),
      mesh.Wf → assemble_system_sparse mesh f = some (As, bs) →
      ∀ r c, As.densify r c = As.densify c r) ∧
    (∀ (a : DMat) (b : DVector) (bdn : List ℕ) (mesh : Mesh2d)
      (g : ℝ → ℝ → ℝ), bdn.Nodup → (∀ j ∈ bdn, j < a.nrows) →
      (∀ r c, a.entry r c = a.entry c r) →
      ∀ r c, (apply_dirichlet_dense a b bdn mesh g).1.entry r c =
        (apply_dirichlet_dense a b bdn mesh g).1.entry c r) ∧
    (∀ (a : CsrMatrix) (b : DVector) (bdn : List ℕ) (mesh : Mesh2d)
      (g : ℝ → ℝ → ℝ), a.Wf → bdn.Nodup → (∀ j ∈ bdn, j < a.nrows) →
      (∀ r c, a.densify r c = a.densify c r) →
      ∀ r c, (apply_dirichlet_sparse a b bdn mesh g).1.densify r c =
        (apply_dirichlet_sparse a b bdn mesh g).1.densify c r) := by
  refine ⟨fun mesh f Ad bd h => assemble_dense_symm mesh f Ad bd h,
    ?_, ?_, ?_⟩
  · intro mesh f As bs hwf hs
    rcases assemble_systems_agree mesh f hwf with ⟨h1, h2⟩ |
      ⟨Ad, bd', As', bs', h1, h2, h3, h4, h5⟩
    · exact Option.noConfusion (hs.symm.trans h2)
    · have heq := Option.some.inj (h2.symm.trans hs)
      have hA : As' = As := congrArg Prod.fst heq
      subst hA
      intro r c
      rw [← h3 r c, ← h3 c r]
      exact assemble_dense_symm mesh f Ad bd' h1 r c
  · intro a b bdn mesh g hnd hlt hsym r c
    obtain spec := apply_dirichlet_dense_spec a b bdn mesh g hnd hlt
    by_cases hr : r ∈ bdn <;> by_cases hc : c ∈ bdn
    · by_cases hrc : r = c
      · rw [hrc]
      · rw [(spec.2.2.2.2.1 r hr c (fun hh => hrc hh.symm) (hlt c hc)).1,
          (spec.2.2.2.2.1 c hc r hrc (hlt r hr)).1]
    · by_cases hcn : c < a.nrows
      · rw [(spec.2.2.2.2.1 r hr c (fun hh => hc (by rw [hh]; exact hr))
          hcn).1, (spec.2.2.2.2.1 r hr c
          (fun hh => hc (by rw [hh]; exact hr)) hcn).2]
      · rw [spec.2.2.2.2.2.2.1 r c hc hcn, spec.2.2.2.2.2.2.2.1 c r hc hcn]
        exact hsym r c
    · by_cases hrn : r < a.nrows
      · rw [(spec.2.2.2.2.1 c hc r (fun hh => hr (by rw [hh]; exact hc))
          hrn).2, (spec.2.2.2.2.1 c hc r
          (fun hh => hr (by rw [hh]; exact hc)) hrn).1]
      · rw [spec.2.2.2.2.2.2.2.1 r c hr hrn, spec.2.2.2.2.2.2.1 c r hr hrn]
        exact hsym r c
    · rw [spec.2.2.2.2.2.1 r c hr hc, spec.2.2.2.2.2.1 c r hc hr]
      exact hsym r c
  · intro a b bdn mesh g hwf hnd hlt hsym r c
    obtain spec := apply_dirichlet_sparse_spec a b bdn mesh g hwf hnd hlt
    rw [spec.2.2.2.2.1 r c, spec.2.2.2.2.1 c r]
    by_cases hr : r ∈ bdn <;> by_cases hc : c ∈ bdn
    · rw [if_pos hr, if_pos hc]
      by_cases hrc : c = r
      · rw [hrc]
      · rw [if_neg (fun hh => hrc hh.1), if_neg (fun hh => hrc hh.1.symm)]
    · rw [if_pos hr, if_neg hc,
        if_neg (fun hh => hc (by rw [hh.1]; exact hr))]
      by_cases hcn : c < a.nrows
      · rw [if_pos ⟨hr, hcn⟩]
      · rw [if_neg (fun hh => hcn hh.2)]
        exact (densify_high hwf (Nat.le_of_not_lt hcn) r).symm
    · rw [if_neg hr, if_pos hc]
      by_cases hrn : r < a.nrows
      · rw [if_pos ⟨hc, hrn⟩,
          if_neg (fun hh => hr (by rw [hh.1]; exact hc))]
      · rw [if_neg (fun hh => hrn hh.2),
          if_neg (fun hh => hr (by rw [hh.1]; exact hc))]
        exact densify_high hwf (Nat.le_of_not_lt hrn) c
    · rw [if_neg hr, if_neg hc, if_neg (fun hh => hc hh.1),
        if_neg (fun hh => hr hh.1)]
      exact hsym r c

/-- Witness for C5 at concrete inputs: the assembled 1×1 systems of the
element-free mesh, and Dirichlet elimination on symmetric 1×1 inputs. -/
theorem stiffness_symmetry_pipeline_witness :
    (∀ r c, (DMat.zeros 1 1).entry r c = (DMat.zeros 1 1).entry c r) ∧
    (∀ r c, (CsrMatrix.fromCoo 1 1 []).densify r c =
      (CsrMatrix.fromCoo 1 1 []).densify c r) ∧
    (∀ r c, (apply_dirichlet_dense (DMat.zeros 1 1) (DVector.zeros 1) [0]
        ⟨[⟨0, 0⟩], [], ElementType.P1⟩ (fun _ _ => 1)).1.entry r c =
      (apply_dirichlet_dense (DMat.zeros 1 1) (DVector.zeros 1) [0]
        ⟨[⟨0, 0⟩], [], ElementType.P1⟩ (fun _ _ => 1)).1.entry c r) ∧
    (∀ r c, (apply_dirichlet_sparse (CsrMatrix.fromCoo 1 1 [])
        (DVector.zeros 1) [0] ⟨[⟨0, 0⟩], [], ElementType.P1⟩
        (fun _ _ => 1)).1.densify r c =
      (apply_dirichlet_sparse (CsrMatrix.fromCoo 1 1 [])
        (DVector.zeros 1) [0] ⟨[⟨0, 0⟩], [], ElementType.P1⟩
        (fun _ _ => 1)).1.densify c r) := by
  refine ⟨stiffness_symmetry_pipeline.1 ⟨[⟨0, 0⟩], [], ElementType.P1⟩
      (fun _ _ => 0) (DMat.zeros 1 1) (DVector.zeros 1) rfl,
    stiffness_symmetry_pipeline.2.1 ⟨[⟨0, 0⟩], [], ElementType.P1⟩
      (fun _ _ => 0) (CsrMatrix.fromCoo 1 1 []) (DVector.zeros 1)
      (by unfold Mesh2d.Wf; decide) rfl,
    stiffness_symmetry_pipeline.2.2.1 (DMat.zeros 1 1) (DVector.zeros 1)
      [0] ⟨[⟨0, 0⟩], [], ElementType.P1⟩ (fun _ _ => 1) (by decide)
      (by decide) (fun r c => rfl),
    stiffness_symmetry_pipeline.2.2.2 (CsrMatrix.fromCoo 1 1 [])
      (DVector.zeros 1) [0] ⟨[⟨0, 0⟩], [], ElementType.P1⟩ (fun _ _ => 1)
      (fromCoo_wf 1 1 []) (by decide) (by decide)
      (fun r c => by rw [fromCoo_nil_densify, fromCoo_nil_densify])⟩

/-- C3: for every well-formed mesh and source function the two assembly
backends agree exactly — both abort together, or both return systems whose
matrices (sparse densified, duplicate COO entries summed during CSR
conversion) and load vectors are equal entrywise; in particular on the
single-element Q1 unit-square mesh with f(x,y) = x + y both backends
return a 4×4 matrix and a length-4 vector agreeing within 1e-10 (here the
model agreement is exact, so the 1e-10 bound holds a fortiori). -/
theorem assemble_backends_equivalent :
    (∀ (mesh : Mesh2d) (f : ℝ → ℝ → ℝ), mesh.Wf →
      (assemble_system_dense mesh f = none ∧
        assemble_system_sparse mesh f = none) ∨
      ∃ Ad bd As bs,
        assemble_system_dense mesh f = some (Ad, bd) ∧
        assemble_system_sparse mesh f = some (As, bs) ∧
        (∀ r c, Ad.entry r c = As.densify r c) ∧
        (∀ k, bd.entry k = bs.entry k)) ∧
    (∃ Ad bd As bs,
      assemble_system_dense unitSquareMesh (fun x y => x + y) =
        some (Ad, bd) ∧
      assemble_system_sparse unitSquareMesh (fun x y => x + y) =
        some (As, bs) ∧
      Ad.nrows = 4 ∧ Ad.ncols = 4 ∧ bd.len = 4 ∧
      As.nrows = 4 ∧ As.ncols = 4 ∧ bs.len = 4 ∧
      (∀ r c, |Ad.entry r c - As.densify r c| ≤ 1 / 10 ^ 10) ∧
      (∀ k, |bd.entry k - bs.entry k| ≤ 1 / 10 ^ 10)) := by
  constructor
  · intro mesh f hwf
    rcases assemble_systems_agree mesh f hwf with ⟨h1, h2⟩ |
      ⟨Ad, bd, As, bs, h1, h2, h3, h4, h5⟩
    · exact Or.inl ⟨h1, h2⟩
    · exact Or.inr ⟨Ad, bd, As, bs, h1, h2, h3, h4⟩
  · have hwf : unitSquareMesh.Wf := by unfold Mesh2d.Wf; decide
    have hsome : (assemble_system_dense unitSquareMesh
        (fun x y => x + y)).isSome := by
      rw [assemble_dense_isSome_iff]
      exact unitSquare_allJacobiansInvertible
    rcases assemble_systems_agree unitSquareMesh (fun x y => x + y) hwf with
      ⟨h1, h2⟩ | ⟨Ad, bd, As, bs, h1, h2, h3, h4, h5, h6, h7, h8, h9, h10⟩
    · rw [h1] at hsome
      simp at hsome
    · refine ⟨Ad, bd, As, bs, h1, h2, ?_, ?_, ?_, ?_, ?_, ?_, ?_, ?_⟩
      · rw [h5]; rfl
      · rw [h6]; rfl
      · rw [h7]; rfl
      · rw [h8]; rfl
      · rw [h9]; rfl
      · rw [h10]; rfl
      · intro r c
        rw [h3 r c, sub_self, abs_zero]
        norm_num
      · intro k
        rw [h4 k, sub_self, abs_zero]
        norm_num

/-- Witness for C3's universally quantified conjunct at the unit-square
mesh (well-formedness discharged concretely). -/
theorem assemble_backends_equivalent_witness :
    (assemble_system_dense unitSquareMesh (fun x y => x + y) = none ∧
      assemble_system_sparse unitSquareMesh (fun x y => x + y) = none) ∨
    ∃ Ad bd As bs,
      assemble_system_dense unitSquareMesh (fun x y => x + y) =
        some (Ad, bd) ∧
      assemble_system_sparse unitSquareMesh (fun x y => x + y) =
        some (As, bs) ∧
      (∀ r c, Ad.entry r c = As.densify r c) ∧
      (∀ k, bd.entry k = bs.entry k) :=
  assemble_backends_equivalent.1 unitSquareMesh (fun x y => x + y)
    (by unfold Mesh2d.Wf; decide)
